import Mathlib

/-!
Verification of the go-cache repository core against its specification.

The Go sources are shallowly embedded: machine integers are `Int` with explicit
two's-complement wrap where the Go code overflows, `time.Time` values are the
signed seconds of Go's internal epoch (year 1), maps are modelled by their key
sets / association lists, and fallible or possibly diverging code returns
`Option`.
-/

namespace GoInt

/-- Go `time` package constant: seconds from the internal epoch (year 1) to the
Unix epoch, `unixToInternal = (1969*365 + 1969/4 - 1969/100 + 1969/400) * 86400`. -/
def unixToInternal : Int := 62135596800

/-- Largest `int64` value (`math.MaxInt64`). -/
def maxInt64 : Int := 9223372036854775807

/-- Smallest `int64` value (`math.MinInt64`). -/
def minInt64 : Int := -9223372036854775808

/-- Two's-complement wrap of an integer into the `int64` range, the semantics of
overflowing `int64` addition in Go. -/
def wrap64 (n : Int) : Int := (n + 2 ^ 63) % 2 ^ 64 - 2 ^ 63

/-- Internal-epoch seconds of `time.Unix(sec, 0)`: Go computes
`sec + unixToInternal` with plain (wrapping) `int64` addition. -/
def timeUnixSec (sec : Int) : Int := wrap64 (sec + unixToInternal)

/-- Seconds of `t.Add(d)`: `Time.addSec` saturates at the `int64` bounds instead
of wrapping. -/
def addSec (t d : Int) : Int :=
  if t + d > maxInt64 then maxInt64
  else if t + d < minInt64 then minInt64
  else t + d

end GoInt

/-- `ByteView` from `internal/cache`: an immutable byte payload.
Bytes are modelled as `List Nat`. -/
structure ByteView where
  bytes : List Nat
deriving DecidableEq

namespace Lru

/-- The `lru.Value` interface: stored values report their size in bytes. -/
class GoValue (α : Type) where
  len : α → Nat

instance : GoValue ByteView := ⟨fun v => v.bytes.length⟩

/-- An `entry` of `pkg/lru`: key, value and expiration time
(internal-epoch seconds; `time.Time` nanoseconds are irrelevant here). -/
structure Entry (α : Type) where
  key : String
  value : α
  exp : Int
deriving DecidableEq

/-- `lru.Cache`.  `ll` is the recency list with the least-recently-used entry at
the head (`list.Front`) and the most-recently-used at the back; `cacheKeys` is
the key set of the `cache` hashmap (`map[string]*list.Element`). -/
structure Cache (α : Type) where
  maxBytes : Int
  nbytes : Int
  ll : List (Entry α)
  cacheKeys : List String
deriving DecidableEq

variable {α : Type} [GoValue α]

/-- `int64(len(key)) + int64(value.Len())`, the size charged for one entry. -/
def entrySize (e : Entry α) : Int := (e.key.length : Int) + (GoValue.len e.value : Int)

/-- Key-set effect of a Go map assignment `m[key] = ele`. -/
def mapInsertKey (k : String) (ks : List String) : List String :=
  if k ∈ ks then ks else k :: ks

/-- Key-set effect of Go `delete(m, key)`. -/
def mapDeleteKey (k : String) (ks : List String) : List String :=
  ks.filter (fun x => x ≠ k)

/-- Remove the first entry with the given key from the recency list
(`list.Remove(ele)` on the element found through the map). -/
def removeFirstKey : List (Entry α) → String → List (Entry α)
  | [], _ => []
  | e :: es, k => if e.key = k then es else e :: removeFirstKey es k

/-- `lru.New`. -/
def Cache.New (maxBytes : Int) : Cache α :=
  { maxBytes := maxBytes, nbytes := 0, ll := [], cacheKeys := [] }

/-- `Cache.Get`: on hit, check expiration; an expired entry is removed and a
miss reported; otherwise the entry moves to the back (most recently used). -/
def Cache.Get (c : Cache α) (key : String) (now : Int) : Option α × Cache α :=
  if key ∈ c.cacheKeys then
    match c.ll.find? (fun e => e.key = key) with
    | none => (none, c)
    | some kv =>
      if kv.exp < now then
        (none, { c with ll := removeFirstKey c.ll key,
                        cacheKeys := mapDeleteKey key c.cacheKeys,
                        nbytes := c.nbytes - entrySize kv })
      else
        (some kv.value, { c with ll := removeFirstKey c.ll key ++ [kv] })
  else (none, c)

/-- Expiration time computed by `Cache.Add`: `time.Now().Add(ttl)` when
`ttl > 0`, else `time.Unix(math.MaxInt64, 0)`. -/
def expOf (ttl now : Int) : Int :=
  if ttl > 0 then GoInt.addSec now ttl else GoInt.timeUnixSec GoInt.maxInt64

/-- The insertion phase of `Cache.Add`, before the eviction loop: replace and
move to back when the key exists, else push a fresh entry at the back. -/
def Cache.addEntryPhase (c : Cache α) (key : String) (value : α) (ttl now : Int) :
    Cache α :=
  if key ∈ c.cacheKeys then
    match c.ll.find? (fun e => e.key = key) with
    | none => c
    | some kv =>
      { c with ll := removeFirstKey c.ll key ++ [{ key := key, value := value, exp := expOf ttl now }],
               nbytes := c.nbytes + (GoValue.len value : Int) - (GoValue.len kv.value : Int) }
  else
    { c with ll := c.ll ++ [{ key := key, value := value, exp := expOf ttl now }],
             cacheKeys := mapInsertKey key c.cacheKeys,
             nbytes := c.nbytes + (key.length : Int) + (GoValue.len value : Int) }

/-- The eviction loop of `Cache.Add`:
`for c.maxBytes != 0 && c.nbytes > c.maxBytes { c.removeOldest() }`.
`removeOldest` removes the front of the recency list and reports the evicted
pair to the `OnEvicted` hook; the accumulated trace records those hook calls in
order.  When the list is empty `removeOldest` is a no-op and the Go loop spins
forever; that divergence is `none`. -/
def evictGo (maxBytes : Int) :
    List (Entry α) → Int → List String → List (String × α) →
    Option (Cache α × List (String × α))
  | [], nbytes, ks, tr =>
    if maxBytes ≠ 0 ∧ maxBytes < nbytes then none
    else some ({ maxBytes := maxBytes, nbytes := nbytes, ll := [], cacheKeys := ks }, tr)
  | e :: rest, nbytes, ks, tr =>
    if maxBytes ≠ 0 ∧ maxBytes < nbytes then
      evictGo maxBytes rest (nbytes - entrySize e) (mapDeleteKey e.key ks)
        (tr ++ [(e.key, e.value)])
    else some ({ maxBytes := maxBytes, nbytes := nbytes, ll := e :: rest, cacheKeys := ks }, tr)

def Cache.evictLoop (c : Cache α) (tr : List (String × α)) :
    Option (Cache α × List (String × α)) :=
  evictGo c.maxBytes c.ll c.nbytes c.cacheKeys tr

/-- `Cache.Add`: insertion phase followed by the eviction loop. -/
def Cache.Add (c : Cache α) (key : String) (value : α) (ttl now : Int) :
    Option (Cache α × List (String × α)) :=
  Cache.evictLoop (c.addEntryPhase key value ttl now) []

/-- `Cache.Delete`: remove the key when present; returns whether it was present. -/
def Cache.Delete (c : Cache α) (key : String) : Bool × Cache α :=
  if key ∈ c.cacheKeys then
    match c.ll.find? (fun e => e.key = key) with
    | none => (false, c)
    | some kv =>
      (true, { c with ll := removeFirstKey c.ll key,
                      cacheKeys := mapDeleteKey key c.cacheKeys,
                      nbytes := c.nbytes - entrySize kv })
  else (false, c)

/-- One observable LRU operation, for stating sequence invariants. -/
inductive Op (α : Type) where
  | get (key : String) (now : Int)
  | add (key : String) (value : α) (ttl now : Int)
  | del (key : String)
deriving DecidableEq

/-- Apply one operation; `none` when `Add` diverges in its eviction loop. -/
def applyOp (c : Cache α) : Op α → Option (Cache α)
  | .get k now => some (c.Get k now).2
  | .add k v ttl now => (c.Add k v ttl now).map (fun p => p.1)
  | .del k => some (c.Delete k).2

/-- Run a sequence of operations from a given state. -/
def runOps (c : Cache α) : List (Op α) → Option (Cache α)
  | [] => some c
  | op :: ops => match applyOp c op with
    | none => none
    | some c1 => runOps c1 ops

/-- Well-formedness tying the recency list to the map's key set. -/
def WF (c : Cache α) : Prop :=
  (c.ll.map (fun e => e.key)).Nodup ∧ c.cacheKeys.Perm (c.ll.map (fun e => e.key))

end Lru

namespace CacheGroup

/-- Error type enum of `internal/cache/errors.go` (iota order). -/
def ErrTypeKeyEmpty : Nat := 1
def ErrTypeKeyNotFound : Nat := 2
def ErrTypeGroupNotFound : Nat := 3
def ErrTypeInternalError : Nat := 4

/-- `CacheError`: type, message and optional wrapped cause (the cause is
modelled by its message string). -/
structure CacheError where
  typ : Nat
  message : String
  cause : Option String
deriving DecidableEq

/-- `NewCacheError`. -/
def NewCacheError (errType : Nat) (message : String) : CacheError :=
  { typ := errType, message := message, cause := none }

/-- `WrapError`. -/
def WrapError (errType : Nat) (message : String) (cause : String) : CacheError :=
  { typ := errType, message := message, cause := some cause }

/-- `ErrEmptyKey`. -/
def ErrEmptyKey : CacheError := NewCacheError ErrTypeKeyEmpty "key is empty"

/-- `ErrNotFound`. -/
def ErrNotFound : CacheError := NewCacheError ErrTypeKeyNotFound "key not found"

/-- `cloneBytes`: a defensive copy; on immutable lists the copy has the same
contents. -/
def cloneBytes (bytes : List Nat) : List Nat := bytes

/-- The concurrency-safe `Cache` wrapper of `internal/cache`: a lazily
initialized LRU plus the `CacheStats` counters `{gets, hits}`. -/
structure CacheWrap where
  lru : Option (Lru.Cache ByteView)
  cacheBytes : Int
  gets : Int
  hits : Int
deriving DecidableEq

/-- `newCache`. -/
def newCache (cacheBytes : Int) : CacheWrap :=
  { lru := none, cacheBytes := cacheBytes, gets := 0, hits := 0 }

/-- `Cache.add`: lazily create the LRU, then `lru.Add`; `none` when the LRU
eviction loop diverges. -/
def CacheWrap.add (c : CacheWrap) (key : String) (value : ByteView) (ttl now : Int) :
    Option CacheWrap :=
  let l := match c.lru with
    | none => Lru.Cache.New c.cacheBytes
    | some l => l
  (l.Add key value ttl now).map (fun p => { c with lru := some p.1 })

/-- `Cache.get`: counts every lookup in `gets` and hits in `hits`; misses when
the LRU is uninitialized. -/
def CacheWrap.get (c : CacheWrap) (key : String) (now : Int) :
    Option ByteView × CacheWrap :=
  let c1 := { c with gets := c.gets + 1 }
  match c1.lru with
  | none => (none, c1)
  | some l =>
    match l.Get key now with
    | (some v, l2) => (some v, { c1 with lru := some l2, hits := c1.hits + 1 })
    | (none, l2) => (none, { c1 with lru := some l2 })

/-- Modelled from the spec: the `Cache.delete` wrapper method of
`internal/cache` is not present in the sources (only its caller `Group.Delete`
is); per the spec, `Group.Delete` performs "LRU delete (idempotent success)",
so the wrapper delegates to `lru.Cache.Delete` on the (possibly still
uninitialized) LRU. -/
def CacheWrap.delete (c : CacheWrap) (key : String) : CacheWrap :=
  match c.lru with
  | none => c
  | some l => { c with lru := some (l.Delete key).2 }

/-- A user-supplied origin `Getter`: returns bytes or an error; Go treats `nil`
and empty slices alike, so both are the empty list. -/
def Getter : Type := String → Except String (List Nat)

/-- A `peers.PeerGetter` restricted to the fixed group: the result of
`GetByProto` for a key. -/
def PeerGetter : Type := String → Except String (List Nat)

/-- A `peers.PeerPicker`: picks the owning remote peer, `none` when the key is
owned locally or no peer is available. -/
structure PeerPicker where
  pick : String → Option PeerGetter

/-- `Group.getLocally`: call the getter; errors wrap as `InternalError`; empty
bytes normalize to `ErrNotFound`; otherwise copy into a `ByteView` and populate
the cache with the group's TTL.  The `Nat` component counts getter
invocations. -/
def getLocally (getter : Getter) (ttl : Int) (st : CacheWrap) (key : String)
    (now : Int) : Option ((Except CacheError ByteView) × CacheWrap × Nat) :=
  match getter key with
  | .error e => some (.error (WrapError ErrTypeInternalError "getter error" e), st, 1)
  | .ok bytes =>
    if bytes.length = 0 then some (.error ErrNotFound, st, 1)
    else
      let value : ByteView := { bytes := cloneBytes bytes }
      (st.add key value ttl now).map (fun st1 => (.ok value, st1, 1))

/-- `Group.getFromPeerWithProto`: on RPC success the response bytes are wrapped
as-is into a `ByteView`. -/
def getFromPeerWithProto (peer : PeerGetter) (key : String) :
    Except String ByteView :=
  match peer key with
  | .error e => .error e
  | .ok v => .ok { bytes := v }

/-- `Group.load`: the body of the single-flight `fn` (`loader.Do` executes it
once for this sequential call; its concurrent behaviour is modelled in the
`Singleflight` namespace).  Prefer a picked remote peer; on RPC failure or no
peer, fall back to `getLocally`. -/
def load (peers : Option PeerPicker) (getter : Getter) (ttl : Int)
    (st : CacheWrap) (key : String) (now : Int) :
    Option ((Except CacheError ByteView) × CacheWrap × Nat) :=
  match peers with
  | some pp =>
    match pp.pick key with
    | some peer =>
      match getFromPeerWithProto peer key with
      | .ok value => some (.ok value, st, 0)
      | .error _ => getLocally getter ttl st key now
    | none => getLocally getter ttl st key now
  | none => getLocally getter ttl st key now

/-- `Group.Get`: empty keys fail with `ErrEmptyKey` before the cache is
consulted; then local cache, then `load`. -/
def Get (peers : Option PeerPicker) (getter : Getter) (ttl : Int)
    (st : CacheWrap) (key : String) (now : Int) :
    Option ((Except CacheError ByteView) × CacheWrap × Nat) :=
  if key = "" then some (.error ErrEmptyKey, st, 0)
  else
    match st.get key now with
    | (some v, st1) => some (.ok v, st1, 0)
    | (none, st1) => load peers getter ttl st1 key now

/-- `Group.Delete`: empty keys fail with `ErrEmptyKey`; otherwise the cache
delete runs and the error result is `nil`. -/
def Delete (st : CacheWrap) (key : String) : (Except CacheError Unit) × CacheWrap :=
  if key = "" then (.error ErrEmptyKey, st)
  else (.ok (), st.delete key)

end CacheGroup

namespace ConsistentHash

/-- Association-list view of the Go map `hashMap : map[int]string`.
`mapInsert` is assignment (overwrite or append), `mapLookup` is access with the
string zero value `""` for missing keys. -/
def mapInsert (m : List (Nat × String)) (h : Nat) (node : String) :
    List (Nat × String) :=
  if m.any (fun p => p.1 = h) then
    m.map (fun p => if p.1 = h then (h, node) else p)
  else m ++ [(h, node)]

def mapLookup (m : List (Nat × String)) (h : Nat) : String :=
  match m.find? (fun p => p.1 = h) with
  | some p => p.2
  | none => ""

/-- `consistenthash.Map` (the ring).  The hash function is passed to each
operation rather than stored. -/
structure Ring where
  replicas : Nat
  keys : List Nat
  hashMap : List (Nat × String)
deriving DecidableEq

/-- `consistenthash.New`. -/
def Ring.New (replicas : Nat) : Ring :=
  { replicas := replicas, keys := [], hashMap := [] }

/-- The virtual-node hashes of one real node:
`hash(strconv.Itoa(i) + key)` for `i ∈ [0, replicas)`. -/
def virtualHashes (hash : String → Nat) (replicas : Nat) (key : String) : List Nat :=
  (List.range replicas).map (fun i => hash (toString i ++ key))

/-- The inner loop of `Map.Add` for one node: append each virtual hash to
`keys` and assign it in `hashMap`. -/
def addNode (hash : String → Nat) (m : Ring) (key : String) : Ring :=
  let hs := virtualHashes hash m.replicas key
  { m with keys := m.keys ++ hs,
           hashMap := hs.foldl (fun hm h => mapInsert hm h key) m.hashMap }

/-- The hash→node assignments performed by `Add`'s loops, flattened in
program order. -/
def insertedPairs (hash : String → Nat) (replicas : Nat) (nodes : List String) :
    List (Nat × String) :=
  nodes.flatMap (fun nd => (virtualHashes hash replicas nd).map (fun h => (h, nd)))

/-- `Map.Add`: process every node, then `sort.Ints(m.keys)`. -/
def Ring.Add (hash : String → Nat) (m : Ring) (nodes : List String) : Ring :=
  let m1 := nodes.foldl (addNode hash) m
  { m1 with keys := m1.keys.mergeSort (fun a b => a ≤ b) }

/-- Go's `sort.Search` loop: binary search for the least index in `[i, j)`
satisfying `f`, returning `j` when none does. -/
def searchLoop (f : Nat → Bool) (i j : Nat) : Nat :=
  if h : i < j then
    let m := (i + j) / 2
    if f m then searchLoop f i m else searchLoop f (m + 1) j
  else i
termination_by j - i
decreasing_by
  · omega
  · omega

/-- `sort.Search(n, f)`. -/
def sortSearch (n : Nat) (f : Nat → Bool) : Nat := searchLoop f 0 n

/-- `Map.Get`: empty ring returns `""`; otherwise binary-search the first
stored hash `≥ hash(key)`, wrapping to index 0 past the end. -/
def Ring.Get (hash : String → Nat) (m : Ring) (key : String) : String :=
  if m.keys.length = 0 then ""
  else
    let h := hash key
    let idx := sortSearch m.keys.length (fun i => decide (m.keys.getD i 0 ≥ h))
    let idx1 := if idx = m.keys.length then 0 else idx
    mapLookup m.hashMap (m.keys.getD idx1 0)

/-- The claim's declarative reading of `Get`: the node mapped to the first
stored hash `≥ hash(key)` in ring order, wrapping to the first entry when none
is, and `""` on an empty ring. -/
def Ring.getSpec (hash : String → Nat) (m : Ring) (key : String) : String :=
  if m.keys = [] then ""
  else
    match m.keys.find? (fun k => decide (hash key ≤ k)) with
    | some k => mapLookup m.hashMap k
    | none => mapLookup m.hashMap (m.keys.headD 0)

/-- `Map.Remove`: Go first executes `make([]int, 0, len(m.keys)-m.replicas)`
and `make(map[int]string, len(m.hashMap)-m.replicas)`; a negative capacity or
size makes either `make` panic at run time, modelled as `none`.  Otherwise the
surviving entries are collected and the key list re-sorted. -/
def Ring.Remove (m : Ring) (key : String) : Option Ring :=
  if (m.keys.length : Int) - (m.replicas : Int) < 0 then none
  else if (m.hashMap.length : Int) - (m.replicas : Int) < 0 then none
  else
    let kept := m.hashMap.filter (fun p => p.2 ≠ key)
    some { m with keys := (kept.map (fun p => p.1)).mergeSort (fun a b => a ≤ b),
                  hashMap := kept }

end ConsistentHash

namespace Singleflight

/-!
Interleaving model of `internal/singleflight` for a single key.

Each `Do(key, fn)` caller is a thread.  Atomic steps correspond to the
mutex-protected or synchronization-ordered regions of the source:

* arrival — `g.mu.Lock(); lookup g.m[key]`, then either register a fresh
  `call` (`c.wg.Add(1); g.m[key] = c`) and become its runner, or become a
  waiter on the existing call (`c.wg.Wait()` after unlocking);
* the runner executing `c.val, c.err = fn()` inside `doCall`;
* the deferred `g.mu.Lock(); delete(g.m, key); g.mu.Unlock()`;
* the deferred `c.wg.Done()`, which releases the waiters and lets the runner's
  own `Do` return `c.val`;
* a waiter returning `c.val` once `wg.Wait()` is released.

Calls are numbered by generation in creation order; `mapSlot` is the content of
`g.m[key]`.  `fn`'s result may differ between invocations, so invocation `g`
returns `f g` for an arbitrary `f`.
-/

/-- One `call` record: whether `fn` was executed for it, whether `wg.Done` has
run, and the published `c.val`. -/
structure CallRec where
  invoked : Bool
  done : Bool
  val : Option Nat
deriving DecidableEq

/-- A fresh `call`. -/
def newCall : CallRec := { invoked := false, done := false, val := none }

/-- Program counter of one `Do` caller. -/
inductive Phase where
  | start
  | waiting (g : Nat)
  | runner (g : Nat)
  | ranFn (g : Nat)
  | deletedRec (g : Nat)
  | finishedPh (g : Nat) (v : Nat)
deriving DecidableEq

/-- Global state: the in-flight map slot for the key, every call ever created
(indexed by generation), the thread phases, and the number of `fn`
executions. -/
structure GState where
  mapSlot : Option Nat
  gens : List CallRec
  threads : List Phase
  invocations : Nat
deriving DecidableEq

/-- Call record of generation `g`. -/
def GState.gen (s : GState) (g : Nat) : CallRec := s.gens.getD g newCall

/-- Published value of generation `g` (`c.val` as read by a released waiter). -/
def GState.valOf (s : GState) (g : Nat) : Nat := (s.gen g).val.getD 0

/-- Update the call record of generation `g`. -/
def GState.setGen (s : GState) (g : Nat) (c : CallRec) : GState :=
  { s with gens := s.gens.set g c }

/-- Update the phase of thread `t`. -/
def GState.setPhase (s : GState) (t : Nat) (ph : Phase) : GState :=
  { s with threads := s.threads.set t ph }

/-- One atomic step of thread `t` (no-op for a blocked waiter, a finished
thread, or an out-of-range id). -/
def step (f : Nat → Nat) (s : GState) (t : Nat) : GState :=
  match s.threads[t]? with
  | none => s
  | some ph =>
    match ph with
    | .start =>
      match s.mapSlot with
      | some g => s.setPhase t (.waiting g)
      | none =>
        let g := s.gens.length
        { s with mapSlot := some g,
                 gens := s.gens ++ [newCall],
                 threads := s.threads.set t (.runner g) }
    | .runner g =>
      let s1 := s.setGen g { invoked := true, done := false, val := some (f g) }
      { s1 with invocations := s1.invocations + 1,
                threads := s1.threads.set t (.ranFn g) }
    | .ranFn g =>
      { s with mapSlot := none, threads := s.threads.set t (.deletedRec g) }
    | .deletedRec g =>
      let s1 := s.setGen g { s.gen g with done := true }
      s1.setPhase t (.finishedPh g (s.valOf g))
    | .waiting g =>
      if (s.gen g).done then s.setPhase t (.finishedPh g (s.valOf g))
      else s
    | .finishedPh _ _ => s

/-- Initial state for `n` callers of one key. -/
def init (n : Nat) : GState :=
  { mapSlot := none, gens := [], threads := List.replicate n .start, invocations := 0 }

/-- Run a schedule (a list of thread ids, each performing one atomic step). -/
def run (f : Nat → Nat) (n : Nat) (sched : List Nat) : GState :=
  sched.foldl (step f) (init n)


/-- Phases holding the runner role for generation `g` (the thread that created
the call and executes `doCall`). -/
def runnerPhase (ph : Phase) (g : Nat) : Prop :=
  ph = .runner g ∨ ph = .ranFn g ∨ ph = .deletedRec g

/-- The generation a phase refers to, if any. -/
def phaseGenOf : Phase → Option Nat
  | .start => none
  | .waiting g => some g
  | .runner g => some g
  | .ranFn g => some g
  | .deletedRec g => some g
  | .finishedPh g _ => some g

/-- Inductive invariant of the single-flight transition system. -/
structure Inv (f : Nat → Nat) (s : GState) : Prop where
  inRange : ∀ (t : Nat) (ph : Phase) (g : Nat), s.threads[t]? = some ph →
    phaseGenOf ph = some g → g < s.gens.length
  uniqueRunner : ∀ (t1 t2 : Nat) (ph1 ph2 : Phase) (g : Nat),
    s.threads[t1]? = some ph1 → s.threads[t2]? = some ph2 →
    runnerPhase ph1 g → runnerPhase ph2 g → t1 = t2
  regMap : ∀ (t g : Nat), (s.threads[t]? = some (.runner g) ∨
    s.threads[t]? = some (.ranFn g)) → s.mapSlot = some g
  regNotInvoked : ∀ (t g : Nat), s.threads[t]? = some (.runner g) →
    (s.gen g).invoked = false ∧ (s.gen g).done = false
  ranState : ∀ (t g : Nat), s.threads[t]? = some (.ranFn g) →
    (s.gen g).invoked = true ∧ (s.gen g).val = some (f g) ∧ (s.gen g).done = false
  deletedState : ∀ (t g : Nat), s.threads[t]? = some (.deletedRec g) →
    (s.gen g).invoked = true ∧ (s.gen g).val = some (f g) ∧
    (s.gen g).done = false ∧ s.mapSlot ≠ some g
  doneState : ∀ g : Nat, (s.gen g).done = true →
    (s.gen g).invoked = true ∧ (s.gen g).val = some (f g) ∧ s.mapSlot ≠ some g
  finVal : ∀ (t g v : Nat), s.threads[t]? = some (.finishedPh g v) →
    v = f g ∧ (s.gen g).done = true
  slotRange : ∀ g : Nat, s.mapSlot = some g → g < s.gens.length
  invCount : s.invocations = (s.gens.filter (fun c => c.invoked)).length

end Singleflight


/-! ## Theorems: LRU store -/

namespace Lru

variable {α : Type} [GoValue α]

theorem addEntryPhase_maxBytes (c : Cache α) (k : String) (v : α) (ttl now : Int) :
    (c.addEntryPhase k v ttl now).maxBytes = c.maxBytes := by
  unfold Cache.addEntryPhase
  split
  · split <;> rfl
  · rfl

/-- Soundness of the eviction loop: on termination it delivers a state within
the byte bound whose recency list is a suffix of the input list, with the
dropped front prefix reported, in order, to the eviction hook. -/
theorem evictGo_sound (maxBytes : Int) (ll : List (Entry α)) :
    ∀ (nbytes : Int) (ks : List String) (tr : List (String × α))
      (out : Cache α × List (String × α)),
    evictGo maxBytes ll nbytes ks tr = some out →
    out.1.maxBytes = maxBytes ∧
    (maxBytes ≠ 0 → out.1.nbytes ≤ maxBytes) ∧
    ∃ n, out.1.ll = ll.drop n ∧
         out.2 = tr ++ (ll.take n).map (fun e => (e.key, e.value)) := by
  induction ll with
  | nil =>
    intro nbytes ks tr out h
    rw [evictGo] at h
    split at h
    · exact Option.noConfusion h
    · rename_i hcond
      obtain ⟨ho1, ho2⟩ : out.1 = (⟨maxBytes, nbytes, [], ks⟩ : Cache α) ∧ out.2 = tr := by
        cases h; exact ⟨rfl, rfl⟩
      rw [ho1, ho2]
      refine ⟨rfl, fun hmb => ?_, 0, by simp, by simp⟩
      show nbytes ≤ maxBytes
      rcases not_and_or.mp hcond with h0 | hle
      · exact absurd (not_not.mp h0) hmb
      · exact not_lt.mp hle
  | cons e rest ih =>
    intro nbytes ks tr out h
    rw [evictGo] at h
    split at h
    · obtain ⟨h1, h2, n, h3, h4⟩ := ih _ _ _ _ h
      exact ⟨h1, h2, n + 1, by simpa using h3, by simpa using h4⟩
    · rename_i hcond
      obtain ⟨ho1, ho2⟩ :
          out.1 = (⟨maxBytes, nbytes, e :: rest, ks⟩ : Cache α) ∧ out.2 = tr := by
        cases h; exact ⟨rfl, rfl⟩
      rw [ho1, ho2]
      refine ⟨rfl, fun hmb => ?_, 0, by simp, by simp⟩
      show nbytes ≤ maxBytes
      rcases not_and_or.mp hcond with h0 | hle
      · exact absurd (not_not.mp h0) hmb
      · exact not_lt.mp hle

/-- Soundness of the eviction loop: on termination it delivers a state within
the byte bound whose recency list is a suffix of the input list, with the
dropped front prefix reported, in order, to the eviction hook. -/
theorem evictLoop_sound (c : Cache α) (tr : List (String × α))
    (out : Cache α × List (String × α)) :
    Cache.evictLoop c tr = some out →
    out.1.maxBytes = c.maxBytes ∧
    (c.maxBytes ≠ 0 → out.1.nbytes ≤ c.maxBytes) ∧
    ∃ n, out.1.ll = c.ll.drop n ∧
         out.2 = tr ++ (c.ll.take n).map (fun e => (e.key, e.value)) :=
  fun h => evictGo_sound c.maxBytes c.ll c.nbytes c.cacheKeys tr out h

end Lru

/-- C2: with `max_bytes ≠ 0`, whenever `Add` returns, `current_bytes` is within
the bound; the final recency list is a suffix of the list right after
insertion, and the dropped front prefix — least-recently-used first — is
exactly the sequence of pairs handed to the `on_evict` hook. -/
theorem c2_add_enforces_size_bound {α : Type} [Lru.GoValue α]
    (c : Lru.Cache α) (key : String) (value : α) (ttl now : Int)
    (out : Lru.Cache α × List (String × α))
    (hmb : c.maxBytes ≠ 0)
    (hadd : c.Add key value ttl now = some out) :
    out.1.nbytes ≤ c.maxBytes ∧
    ∃ n, out.1.ll = (c.addEntryPhase key value ttl now).ll.drop n ∧
         out.2 = ((c.addEntryPhase key value ttl now).ll.take n).map
           (fun e => (e.key, e.value)) := by
  have hmb1 : (c.addEntryPhase key value ttl now).maxBytes = c.maxBytes :=
    Lru.addEntryPhase_maxBytes c key value ttl now
  obtain ⟨h1, h2, n, h3, h4⟩ := Lru.evictLoop_sound _ _ _ hadd
  rw [hmb1] at h2
  exact ⟨h2 hmb, n, h3, by simpa using h4⟩

/-- Witness for C2 at a concrete input: a cache bounded at 3 bytes holding
`"a" ↦ x` (2 bytes), after adding `"b" ↦ y` (2 bytes), evicts the
least-recently-used entry `"a"` and ends within the bound. -/
theorem c2_add_enforces_size_bound_witness :
    (({ maxBytes := 3, nbytes := 2,
        ll := [{ key := "b", value := (⟨[8]⟩ : ByteView),
                 exp := -9223371974719179009 }],
        cacheKeys := ["b"] } : Lru.Cache ByteView),
      [("a", (⟨[7]⟩ : ByteView))]).1.nbytes
      ≤ ({ maxBytes := 3, nbytes := 2,
           ll := [{ key := "a", value := (⟨[7]⟩ : ByteView), exp := 100 }],
           cacheKeys := ["a"] } : Lru.Cache ByteView).maxBytes :=
  (c2_add_enforces_size_bound
    ({ maxBytes := 3, nbytes := 2,
       ll := [{ key := "a", value := ⟨[7]⟩, exp := 100 }],
       cacheKeys := ["a"] } : Lru.Cache ByteView)
    "b" ⟨[8]⟩ 0 50
    (({ maxBytes := 3, nbytes := 2,
        ll := [{ key := "b", value := ⟨[8]⟩, exp := -9223371974719179009 }],
        cacheKeys := ["b"] } : Lru.Cache ByteView), [("a", ⟨[7]⟩)])
    (by decide) (by decide)).1

/-- C1 (refuted, code bug): adding with `ttl = 0` is meant to give the entry an
infinite expiration (`time.Unix(math.MaxInt64, 0)`), but the `int64` addition
of `unixToInternal` inside `time.Unix` overflows and wraps to a far-past
instant (internal seconds `-9223371974719179009 < 0`), so the very next `Get`
— here at wall-clock internal second `63900000001`, with no eviction,
replacement or delete in between — treats the entry as expired, removes it,
and reports a miss instead of returning the value. -/
theorem c1_ttl_zero_entry_expires_on_get :
    GoInt.timeUnixSec GoInt.maxInt64 = -9223371974719179009 ∧
    (Lru.Cache.Add ((Lru.Cache.New 0 : Lru.Cache ByteView)) "k" ⟨[7]⟩ 0 63900000000)
      = some ({ maxBytes := 0, nbytes := 2,
                ll := [{ key := "k", value := ⟨[7]⟩,
                         exp := -9223371974719179009 }],
                cacheKeys := ["k"] }, []) ∧
    (Lru.Cache.Get
        { maxBytes := 0, nbytes := 2,
          ll := [{ key := "k", value := ⟨[7]⟩, exp := -9223371974719179009 }],
          cacheKeys := ["k"] } "k" 63900000001)
      = (none, (Lru.Cache.New 0 : Lru.Cache ByteView)) := by
  refine ⟨by decide, by decide, by decide⟩

namespace Lru

variable {α : Type} [GoValue α]

theorem removeFirstKey_map_key (ll : List (Entry α)) (k : String) :
    (removeFirstKey ll k).map (fun e => e.key)
      = (ll.map (fun e => e.key)).erase k := by
  induction ll with
  | nil => simp [removeFirstKey]
  | cons e es ih =>
    by_cases h : e.key = k
    · simp [removeFirstKey, h, List.erase_cons_head]
    · simp only [removeFirstKey, if_neg h, List.map_cons, ih]
      rw [List.erase_cons_tail]
      simp [h]

theorem find?_key_eq {ll : List (Entry α)} {k : String} {kv : Entry α}
    (h : ll.find? (fun e => e.key = k) = some kv) :
    kv.key = k ∧ k ∈ ll.map (fun e => e.key) := by
  have h1 := List.find?_some h
  have h2 := List.mem_of_find?_eq_some h
  refine ⟨by simpa using h1, ?_⟩
  have : kv.key ∈ ll.map (fun e => e.key) := List.mem_map_of_mem _ h2
  simpa [of_decide_eq_true h1] using this

theorem mapDeleteKey_perm_erase {ks : List String} (keys : List String)
    (k : String) (hnd : keys.Nodup) (hp : ks.Perm keys) :
    (mapDeleteKey k ks).Perm (keys.erase k) := by
  have h1 : (ks.filter (fun x => x ≠ k)).Perm (keys.filter (fun x => x ≠ k)) :=
    hp.filter _
  have h2 : keys.erase k = keys.filter (fun x => x != k) :=
    hnd.erase_eq_filter k
  have h3 : keys.filter (fun x => x != k) = keys.filter (fun x => x ≠ k) := by
    apply List.filter_congr
    intro x _
    by_cases hx : x = k <;> simp [hx]
  rw [mapDeleteKey, h2, h3]
  exact h1

theorem nodup_erase_append_singleton {keys : List String} (k : String)
    (hnd : keys.Nodup) : (keys.erase k ++ [k]).Nodup := by
  rw [List.nodup_append]
  refine ⟨hnd.erase k, by simp, ?_⟩
  intro a ha hb
  simp only [List.mem_singleton] at hb
  subst hb
  exact (List.Nodup.not_mem_erase hnd) ha

theorem perm_erase_append_singleton {ks keys : List String} {k : String}
    (hmem : k ∈ keys) (hp : ks.Perm keys) :
    ks.Perm (keys.erase k ++ [k]) := by
  have h1 : keys.Perm (k :: keys.erase k) := List.perm_cons_erase hmem
  have h2 : (keys.erase k ++ [k]).Perm (k :: keys.erase k) :=
    List.perm_append_singleton _ _
  exact (hp.trans h1).trans h2.symm

/-- `Get` preserves well-formedness (including the expiration-removal path). -/
theorem wf_get (c : Cache α) (k : String) (now : Int) (h : WF c) :
    WF (c.Get k now).2 := by
  obtain ⟨hnd, hp⟩ := h
  unfold Cache.Get
  split
  · split
    · exact ⟨hnd, hp⟩
    · rename_i kv hfind
      obtain ⟨hkey, hmemk⟩ := find?_key_eq hfind
      split
      · refine ⟨?_, ?_⟩
        · simpa [WF, removeFirstKey_map_key] using hnd.erase k
        · simpa [WF, removeFirstKey_map_key] using
            mapDeleteKey_perm_erase _ k hnd hp
      · refine ⟨?_, ?_⟩
        · simpa [WF, removeFirstKey_map_key, hkey] using
            nodup_erase_append_singleton k hnd
        · simpa [WF, removeFirstKey_map_key, hkey] using
            perm_erase_append_singleton hmemk hp
  · exact ⟨hnd, hp⟩

/-- `Delete` preserves well-formedness. -/
theorem wf_delete (c : Cache α) (k : String) (h : WF c) :
    WF (c.Delete k).2 := by
  obtain ⟨hnd, hp⟩ := h
  unfold Cache.Delete
  split
  · split
    · exact ⟨hnd, hp⟩
    · rename_i kv hfind
      refine ⟨?_, ?_⟩
      · simpa [WF, removeFirstKey_map_key] using hnd.erase k
      · simpa [WF, removeFirstKey_map_key] using mapDeleteKey_perm_erase _ k hnd hp
  · exact ⟨hnd, hp⟩

/-- The insertion phase of `Add` preserves well-formedness. -/
theorem wf_addEntryPhase (c : Cache α) (k : String) (v : α) (ttl now : Int)
    (h : WF c) : WF (c.addEntryPhase k v ttl now) := by
  obtain ⟨hnd, hp⟩ := h
  unfold Cache.addEntryPhase
  split
  · split
    · exact ⟨hnd, hp⟩
    · rename_i kv hfind
      obtain ⟨hkey, hmemk⟩ := find?_key_eq hfind
      refine ⟨?_, ?_⟩
      · simpa [WF, removeFirstKey_map_key] using
          nodup_erase_append_singleton k hnd
      · simpa [WF, removeFirstKey_map_key] using
          perm_erase_append_singleton hmemk hp
  · rename_i hmem
    have hk : k ∉ c.ll.map (fun e => e.key) := fun hcontra =>
      hmem (hp.mem_iff.mpr hcontra)
    refine ⟨?_, ?_⟩
    · simp only [List.map_append, List.map_cons, List.map_nil]
      rw [List.nodup_append]
      refine ⟨hnd, by simp, ?_⟩
      intro a ha hb
      simp only [List.mem_singleton] at hb
      subst hb
      exact hk ha
    · simp only [mapInsertKey, if_neg hmem, List.map_append, List.map_cons,
        List.map_nil]
      exact (hp.cons k).trans (List.perm_append_singleton _ _).symm

/-- The eviction loop preserves well-formedness. -/
theorem wf_evictGo (maxBytes : Int) (ll : List (Entry α)) :
    ∀ (nbytes : Int) (ks : List String) (tr : List (String × α))
      (out : Cache α × List (String × α)),
    (ll.map (fun e => e.key)).Nodup →
    ks.Perm (ll.map (fun e => e.key)) →
    evictGo maxBytes ll nbytes ks tr = some out →
    WF out.1 := by
  induction ll with
  | nil =>
    intro nbytes ks tr out hnd hp h
    rw [evictGo] at h
    split at h
    · exact Option.noConfusion h
    · obtain ⟨ho1, _⟩ : out.1 = (⟨maxBytes, nbytes, [], ks⟩ : Cache α) ∧ out.2 = tr := by
        cases h; exact ⟨rfl, rfl⟩
      rw [ho1]
      exact ⟨by simp, by simpa using hp⟩
  | cons e rest ih =>
    intro nbytes ks tr out hnd hp h
    rw [evictGo] at h
    split at h
    · have hnd1 : (rest.map (fun e => e.key)).Nodup := by
        simpa using hnd.of_cons
      have hp1 : (mapDeleteKey e.key ks).Perm (rest.map (fun x => x.key)) := by
        have := mapDeleteKey_perm_erase ((e :: rest).map (fun x => x.key))
          e.key (by simpa using hnd) (by simpa using hp)
        simpa [List.erase_cons_head] using this
      exact ih _ _ _ _ hnd1 hp1 h
    · obtain ⟨ho1, _⟩ :
          out.1 = (⟨maxBytes, nbytes, e :: rest, ks⟩ : Cache α) ∧ out.2 = tr := by
        cases h; exact ⟨rfl, rfl⟩
      rw [ho1]
      exact ⟨by simpa using hnd, by simpa using hp⟩

/-- `Add` preserves well-formedness whenever it terminates. -/
theorem wf_add (c : Cache α) (k : String) (v : α) (ttl now : Int)
    (out : Cache α × List (String × α)) (h : WF c)
    (hadd : c.Add k v ttl now = some out) : WF out.1 := by
  obtain ⟨hnd1, hp1⟩ := wf_addEntryPhase c k v ttl now h
  exact wf_evictGo _ _ _ _ _ _ hnd1 hp1 hadd

/-- Each operation preserves well-formedness whenever it completes. -/
theorem wf_applyOp (c : Cache α) (op : Op α) (c1 : Cache α) (h : WF c)
    (happ : applyOp c op = some c1) : WF c1 := by
  cases op with
  | get k now =>
    obtain rfl : (c.Get k now).2 = c1 := by
      simpa [applyOp] using happ
    exact wf_get c k now h
  | add k v ttl now =>
    simp only [applyOp, Option.map_eq_some'] at happ
    obtain ⟨out, hout, rfl⟩ := happ
    exact wf_add c k v ttl now out h hout
  | del k =>
    obtain rfl : (c.Delete k).2 = c1 := by
      simpa [applyOp] using happ
    exact wf_delete c k h

/-- Running a sequence of operations preserves well-formedness. -/
theorem wf_runOps (ops : List (Op α)) :
    ∀ (c : Cache α) (c1 : Cache α), WF c → runOps c ops = some c1 → WF c1 := by
  induction ops with
  | nil =>
    intro c c1 h hrun
    obtain rfl : c = c1 := by simpa [runOps] using hrun
    exact h
  | cons op ops ih =>
    intro c c1 h hrun
    rw [runOps] at hrun
    split at hrun
    · exact Option.noConfusion hrun
    · rename_i c2 happ
      exact ih c2 c1 (wf_applyOp c op c2 h happ) hrun

theorem wf_new (maxBytes : Int) : WF (Cache.New maxBytes : Cache α) :=
  ⟨by simp [Cache.New], by simp [Cache.New]⟩

end Lru

/-- C5: after any sequence of `get`/`add`/`delete` operations on a fresh LRU
store — including expiration-triggered removals inside `get` and
size-triggered evictions inside `add` — the recency list and the key→element
index hold exactly the same set of keys. -/
theorem c5_recency_list_and_index_agree (mb : Int) (ops : List (Lru.Op ByteView))
    (c : Lru.Cache ByteView)
    (hrun : Lru.runOps (Lru.Cache.New mb) ops = some c) :
    ∀ k, k ∈ c.cacheKeys ↔ k ∈ c.ll.map (fun e => e.key) := by
  obtain ⟨_, hp⟩ := Lru.wf_runOps ops _ c (Lru.wf_new mb) hrun
  exact fun k => hp.mem_iff

/-- Witness for C5: a concrete run with an expiring `get`, a size eviction and
a `delete` ends with agreeing key sets. -/
theorem c5_recency_list_and_index_agree_witness :
    "c" ∈ (({ maxBytes := 5, nbytes := 2,
              ll := [{ key := "c", value := (⟨[3]⟩ : ByteView), exp := 60 }],
              cacheKeys := ["c"] } : Lru.Cache ByteView)).cacheKeys ↔
    "c" ∈ (({ maxBytes := 5, nbytes := 2,
              ll := [{ key := "c", value := (⟨[3]⟩ : ByteView), exp := 60 }],
              cacheKeys := ["c"] } : Lru.Cache ByteView)).ll.map
      (fun e => e.key) :=
  c5_recency_list_and_index_agree 5
    [.add "a" ⟨[1]⟩ 10 20, .add "b" ⟨[2]⟩ 0 21, .get "b" 25,
     .add "c" ⟨[3]⟩ 30 30, .del "a", .get "a" 31]
    _ (by decide) "c"

/-! ## Theorems: cache group -/

namespace CacheGroup

/-- `lru.Cache.Delete` on an absent key changes nothing and returns `false`. -/
theorem lru_delete_absent (c : Lru.Cache ByteView) (key : String)
    (h : key ∉ c.cacheKeys) : c.Delete key = (false, c) := by
  unfold Lru.Cache.Delete
  rw [if_neg h]

end CacheGroup

/-- C7: `Group.Get` on the empty key fails with `ErrEmptyKey` immediately —
the state (including the `gets`/`hits` statistics the cache lookup would bump)
is untouched and the origin getter is never invoked — and `Group.Delete` on
the empty key fails with `ErrEmptyKey` without mutating the cache. -/
theorem c7_empty_key_rejected (peers : Option CacheGroup.PeerPicker)
    (getter : CacheGroup.Getter) (ttl : Int) (st : CacheGroup.CacheWrap)
    (now : Int) :
    CacheGroup.Get peers getter ttl st "" now
      = some (.error CacheGroup.ErrEmptyKey, st, 0) ∧
    CacheGroup.Delete st "" = (.error CacheGroup.ErrEmptyKey, st) := by
  constructor
  · rw [CacheGroup.Get, if_pos rfl]
  · rw [CacheGroup.Delete, if_pos rfl]

/-- C4: with no cached entry and no usable peer, `getLocally` decides the
outcome: a getter error is wrapped as `InternalError` and nothing is cached;
`nil`/empty bytes are normalized to `ErrNotFound` and nothing is cached;
non-empty bytes `b` come back as a `ByteView` holding a copy of `b` and the
value is inserted into the LRU via `add` with the group's TTL. -/
theorem c4_get_locally_cases (getter : CacheGroup.Getter) (ttl : Int)
    (st : CacheGroup.CacheWrap) (key : String) (now : Int) :
    (∀ e, getter key = .error e →
      CacheGroup.getLocally getter ttl st key now
        = some (.error (CacheGroup.WrapError CacheGroup.ErrTypeInternalError
            "getter error" e), st, 1)) ∧
    (getter key = .ok [] →
      CacheGroup.getLocally getter ttl st key now
        = some (.error CacheGroup.ErrNotFound, st, 1)) ∧
    (∀ bs, getter key = .ok bs → bs ≠ [] →
      CacheGroup.getLocally getter ttl st key now
        = (st.add key { bytes := CacheGroup.cloneBytes bs } ttl now).map
            (fun st1 => (.ok { bytes := CacheGroup.cloneBytes bs }, st1, 1))) := by
  refine ⟨?_, ?_, ?_⟩
  · intro e he
    rw [CacheGroup.getLocally, he]
  · intro hok
    rw [CacheGroup.getLocally, hok]
    simp
  · intro bs hok hne
    simp [CacheGroup.getLocally, hok, List.length_eq_zero, hne]

/-- Witness for C4 at concrete inputs, all three getter outcomes. -/
theorem c4_get_locally_cases_witness :
    (CacheGroup.getLocally (fun _ => .error "boom") 7 (CacheGroup.newCache 100)
        "k" 50
      = some (.error (CacheGroup.WrapError CacheGroup.ErrTypeInternalError
          "getter error" "boom"), CacheGroup.newCache 100, 1)) ∧
    (CacheGroup.getLocally (fun _ => .ok []) 7 (CacheGroup.newCache 100) "k" 50
      = some (.error CacheGroup.ErrNotFound, CacheGroup.newCache 100, 1)) ∧
    (CacheGroup.getLocally (fun _ => .ok [9, 9]) 7 (CacheGroup.newCache 100)
        "k" 50
      = ((CacheGroup.newCache 100).add "k"
            { bytes := CacheGroup.cloneBytes [9, 9] } 7 50).map
          (fun st1 => (.ok { bytes := CacheGroup.cloneBytes [9, 9] }, st1, 1))) :=
  ⟨(c4_get_locally_cases (fun _ => .error "boom") 7 (CacheGroup.newCache 100)
      "k" 50).1 "boom" rfl,
   (c4_get_locally_cases (fun _ => .ok []) 7 (CacheGroup.newCache 100)
      "k" 50).2.1 rfl,
   (c4_get_locally_cases (fun _ => .ok [9, 9]) 7 (CacheGroup.newCache 100)
      "k" 50).2.2 [9, 9] rfl (by decide)⟩

/-- C8: when a peers router is registered, it picks an owner for the key and
the remote proto RPC succeeds with bytes `v`, `load` returns the remote
`ByteView` unchanged and leaves the local cache state exactly as it was — the
origin getter is not invoked and nothing is inserted locally (only the
`getLocally` fallback path inserts). -/
theorem c8_peer_hit_leaves_local_cache (pp : CacheGroup.PeerPicker)
    (peer : CacheGroup.PeerGetter) (getter : CacheGroup.Getter) (ttl : Int)
    (st : CacheGroup.CacheWrap) (key : String) (now : Int) (v : List Nat)
    (hpick : pp.pick key = some peer) (hrpc : peer key = .ok v) :
    CacheGroup.load (some pp) getter ttl st key now
      = some (.ok { bytes := v }, st, 0) := by
  simp [CacheGroup.load, hpick, CacheGroup.getFromPeerWithProto, hrpc]

/-- Witness for C8 at a concrete picked peer and RPC result. -/
theorem c8_peer_hit_leaves_local_cache_witness :
    CacheGroup.load
        (some { pick := fun _ => some (fun _ => .ok [4, 2]) })
        (fun _ => .ok [7]) 9 (CacheGroup.newCache 64) "k" 50
      = some (.ok { bytes := [4, 2] }, CacheGroup.newCache 64, 0) :=
  c8_peer_hit_leaves_local_cache
    { pick := fun _ => some (fun _ => .ok [4, 2]) }
    (fun _ => .ok [4, 2]) (fun _ => .ok [7]) 9 (CacheGroup.newCache 64) "k" 50
    [4, 2] rfl rfl

/-- C9: for every non-empty key, `Group.Delete` reports success, and when the
key is absent (or the LRU is still uninitialized) the whole cache state —
entries, byte count, recency order, statistics — is unchanged. -/
theorem c9_delete_idempotent (st : CacheGroup.CacheWrap) (key : String)
    (hne : key ≠ "") :
    (CacheGroup.Delete st key).1 = .ok () ∧
    (∀ l, st.lru = some l → key ∉ l.cacheKeys →
      CacheGroup.Delete st key = (.ok (), st)) ∧
    (st.lru = none → CacheGroup.Delete st key = (.ok (), st)) := by
  refine ⟨?_, ?_, ?_⟩
  · rw [CacheGroup.Delete, if_neg hne]
  · intro l hl habsent
    simp only [CacheGroup.Delete, if_neg hne, CacheGroup.CacheWrap.delete, hl,
      CacheGroup.lru_delete_absent l key habsent]
    cases st
    simp_all
  · intro hl
    rw [CacheGroup.Delete, if_neg hne, CacheGroup.CacheWrap.delete, hl]

/-- Witness for C9: deleting the absent key `"x"` from a cache whose LRU holds
only `"k"` succeeds and changes nothing. -/
theorem c9_delete_idempotent_witness :
    CacheGroup.Delete
        { lru := some { maxBytes := 10, nbytes := 2,
                        ll := [{ key := "k", value := ⟨[7]⟩, exp := 90 }],
                        cacheKeys := ["k"] },
          cacheBytes := 10, gets := 3, hits := 1 } "x"
      = (.ok (),
         { lru := some { maxBytes := 10, nbytes := 2,
                         ll := [{ key := "k", value := ⟨[7]⟩, exp := 90 }],
                         cacheKeys := ["k"] },
           cacheBytes := 10, gets := 3, hits := 1 }) :=
  (c9_delete_idempotent
    { lru := some { maxBytes := 10, nbytes := 2,
                    ll := [{ key := "k", value := ⟨[7]⟩, exp := 90 }],
                    cacheKeys := ["k"] },
      cacheBytes := 10, gets := 3, hits := 1 } "x" (by decide)).2.1
    { maxBytes := 10, nbytes := 2,
      ll := [{ key := "k", value := ⟨[7]⟩, exp := 90 }], cacheKeys := ["k"] }
    rfl (by decide)

/-! ## Theorems: consistent hash ring -/

/-- C10: whenever the ring stores fewer hash entries than `replicas` — in
particular a freshly created ring with `replicas > 0` — `Remove` panics on
`make([]int, 0, len(m.keys)-m.replicas)` (negative capacity, modelled as
`none`) instead of acting as a no-op; so `Remove` can only run safely when at
least `replicas` hash entries are present. -/
theorem c10_remove_underflow_panics (m : ConsistentHash.Ring) (key : String)
    (h : m.keys.length < m.replicas) : m.Remove key = none := by
  rw [ConsistentHash.Ring.Remove, if_pos (by omega)]

/-- Witness for C10: removing any node from a fresh ring with `replicas = 3`
panics. -/
theorem c10_remove_underflow_panics_witness :
    (ConsistentHash.Ring.New 3).Remove "peer-a" = none :=
  c10_remove_underflow_panics (ConsistentHash.Ring.New 3) "peer-a" (by decide)

namespace ConsistentHash

/-- Auxiliary strong induction for `searchLoop`, on the width of the
interval. -/
theorem searchLoop_spec_aux (n : Nat) (f : Nat → Bool)
    (hmono : ∀ a b, a ≤ b → b < n → f a = true → f b = true) :
    ∀ d i j, j - i = d → i ≤ j → j ≤ n → (∀ k, k < i → f k = false) →
    i ≤ searchLoop f i j ∧ searchLoop f i j ≤ j ∧
    (∀ k, k < searchLoop f i j → f k = false) ∧
    (searchLoop f i j < j → f (searchLoop f i j) = true) := by
  intro d
  induction d using Nat.strong_induction_on with
  | _ d ih =>
    intro i j hd hij hjn hpre
    by_cases hlt : i < j
    · have heq : searchLoop f i j =
          if f ((i + j) / 2) then searchLoop f i ((i + j) / 2)
          else searchLoop f ((i + j) / 2 + 1) j := by
        rw [searchLoop, dif_pos hlt]
      rcases hfm : f ((i + j) / 2) with _ | _
      · rw [heq, if_neg (by simp [hfm])]
        have hpre1 : ∀ k, k < (i + j) / 2 + 1 → f k = false := by
          intro k hk
          by_cases hki : k < i
          · exact hpre k hki
          · rcases hfk : f k with _ | _
            · rfl
            · have hc : f ((i + j) / 2) = true :=
                hmono k ((i + j) / 2) (by omega) (by omega) hfk
              rw [hfm] at hc
              exact Bool.noConfusion hc
        obtain ⟨g1, g2, g3, g4⟩ :=
          ih (j - ((i + j) / 2 + 1)) (by omega) ((i + j) / 2 + 1) j rfl
            (by omega) hjn hpre1
        exact ⟨by omega, g2, g3, g4⟩
      · rw [heq, if_pos hfm]
        obtain ⟨g1, g2, g3, g4⟩ :=
          ih ((i + j) / 2 - i) (by omega) i ((i + j) / 2) rfl (by omega)
            (by omega) hpre
        refine ⟨g1, by omega, g3, fun _ => ?_⟩
        rcases Nat.lt_or_ge (searchLoop f i ((i + j) / 2)) ((i + j) / 2) with hc | hc
        · exact g4 hc
        · have hg : searchLoop f i ((i + j) / 2) = (i + j) / 2 := by omega
          rw [hg]
          exact hfm
    · have heq : searchLoop f i j = i := by
        rw [searchLoop, dif_neg hlt]
      rw [heq]
      exact ⟨le_refl i, hij, hpre, fun h => absurd h (by omega)⟩

/-- Go's `sort.Search` invariant: for a predicate monotone on `[0, n)`, the
loop returns the least index with the predicate true (or `n` when there is
none), never evaluating the predicate outside `[0, n)`. -/
theorem sortSearch_spec (n : Nat) (f : Nat → Bool)
    (hmono : ∀ a b, a ≤ b → b < n → f a = true → f b = true) :
    sortSearch n f ≤ n ∧
    (∀ k, k < sortSearch n f → f k = false) ∧
    (sortSearch n f < n → f (sortSearch n f) = true) := by
  obtain ⟨_, g2, g3, g4⟩ :=
    searchLoop_spec_aux n f hmono n 0 n rfl (Nat.zero_le n) (le_refl n)
      (fun k hk => absurd hk (Nat.not_lt_zero k))
  exact ⟨g2, g3, g4⟩

/-- `find?` returns the element at `findIdx` when the latter is in range. -/
theorem find?_eq_getD_findIdx {α : Type} (p : α → Bool) (l : List α) (d : α)
    (h : l.findIdx p < l.length) :
    l.find? p = some (l.getD (l.findIdx p) d) := by
  induction l with
  | nil => simp at h
  | cons a t ih =>
    rcases hpa : p a with _ | _
    · rw [List.findIdx_cons, hpa] at h ⊢
      simp only [cond_false] at h ⊢
      have h2 : t.findIdx p < t.length := by
        simp only [List.length_cons] at h
        omega
      rw [List.find?_cons_of_neg _ (by simp [hpa]), ih h2]
      rfl
    · rw [List.find?_cons_of_pos _ hpa, List.findIdx_cons, hpa]
      rfl

/-- On a sorted key list, the binary search of `Map.Get` finds exactly the
first index whose key is `≥ x` (`findIdx`), i.e. linear first-match order. -/
theorem sortSearch_eq_findIdx (l : List Nat) (x : Nat)
    (hs : l.Sorted (fun a b => a ≤ b)) :
    sortSearch l.length (fun i => decide (l.getD i 0 ≥ x))
      = l.findIdx (fun k => decide (x ≤ k)) := by
  have hmono : ∀ a b, a ≤ b → b < l.length →
      (fun i => decide (l.getD i 0 ≥ x)) a = true →
      (fun i => decide (l.getD i 0 ≥ x)) b = true := by
    intro a b hab hb hfa
    have ha : a < l.length := by omega
    simp only [decide_eq_true_eq, ge_iff_le] at hfa ⊢
    have hle : l.getD a 0 ≤ l.getD b 0 := by
      rw [List.getD_eq_getElem l 0 ha, List.getD_eq_getElem l 0 hb]
      rcases Nat.lt_or_ge a b with hab1 | hab1
      · exact List.pairwise_iff_getElem.mp hs a b ha hb hab1
      · have : a = b := by omega
        subst this
        exact le_refl _
    exact le_trans hfa hle
  obtain ⟨g1, g2, g3⟩ := sortSearch_spec l.length _ hmono
  have hr2 : l.findIdx (fun k => decide (x ≤ k)) ≤ l.length :=
    List.findIdx_le_length _
  rcases Nat.lt_trichotomy (sortSearch l.length (fun i => decide (l.getD i 0 ≥ x)))
      (l.findIdx (fun k => decide (x ≤ k))) with h | h | h
  · exfalso
    have hlt : sortSearch l.length (fun i => decide (l.getD i 0 ≥ x)) < l.length :=
      lt_of_lt_of_le h hr2
    have h1 := g3 hlt
    have h2 := List.not_of_lt_findIdx h
    rw [decide_eq_true_eq, ge_iff_le, List.getD_eq_getElem l 0 hlt] at h1
    rw [decide_eq_false_iff_not] at h2
    exact h2 h1
  · exact h
  · exfalso
    have hlt : l.findIdx (fun k => decide (x ≤ k)) < l.length :=
      lt_of_lt_of_le h g1
    have h1 := g2 _ h
    have h2 := @List.findIdx_getElem _ _ _ hlt
    rw [decide_eq_false_iff_not, ge_iff_le, List.getD_eq_getElem l 0 hlt] at h1
    rw [decide_eq_true_eq] at h2
    exact h1 h2

/-- C6's reading of `Get`: on a sorted ring, the binary-searched owner is the
node mapped to the first stored hash `≥ hash(key)`, wrapping to the head when
no hash qualifies, with `""` on an empty ring. -/
theorem get_eq_getSpec (hash : String → Nat) (m : Ring) (key : String)
    (hs : m.keys.Sorted (fun a b => a ≤ b)) :
    m.Get hash key = m.getSpec hash key := by
  simp only [Ring.Get, Ring.getSpec]
  rcases hk : m.keys with _ | ⟨a, t⟩
  · simp
  · rw [← hk]
    have hne : ¬m.keys.length = 0 := by rw [hk]; simp
    have hne2 : ¬m.keys = [] := by rw [hk]; simp
    rw [if_neg hne, if_neg hne2]
    rw [sortSearch_eq_findIdx m.keys (hash key) hs]
    rcases Nat.lt_or_ge (m.keys.findIdx (fun k => decide (hash key ≤ k)))
        m.keys.length with hlt | hge
    · rw [if_neg (by omega),
        find?_eq_getD_findIdx (fun k => decide (hash key ≤ k)) m.keys 0 hlt]
    · have heqn : m.keys.findIdx (fun k => decide (hash key ≤ k)) = m.keys.length := by
        have := @List.findIdx_le_length _ (fun k => decide (hash key ≤ k)) m.keys
        omega
      rw [if_pos heqn]
      have hnone : m.keys.find? (fun k => decide (hash key ≤ k)) = none := by
        rw [List.find?_eq_none]
        intro y hy
        have := List.findIdx_eq_length.mp heqn y hy
        simp only [this]
        exact Bool.noConfusion
      rw [hnone]
      rcases hk2 : m.keys with _ | ⟨a2, t2⟩
      · exact absurd hk2 hne2
      · simp [List.getD, List.headD]

theorem addNode_replicas (hash : String → Nat) (m : Ring) (key : String) :
    (addNode hash m key).replicas = m.replicas := rfl

theorem foldl_addNode_replicas (hash : String → Nat) (nodes : List String) :
    ∀ m : Ring, (nodes.foldl (addNode hash) m).replicas = m.replicas := by
  induction nodes with
  | nil => intro m; rfl
  | cons nd rest ih => intro m; rw [List.foldl_cons, ih, addNode_replicas]

/-- The keys accumulated by `Add`'s loop: every node appends exactly its
`replicas` virtual hashes, in order. -/
theorem foldl_addNode_keys (hash : String → Nat) (nodes : List String) :
    ∀ m : Ring, (nodes.foldl (addNode hash) m).keys
      = m.keys ++ nodes.flatMap (fun nd => virtualHashes hash m.replicas nd) := by
  induction nodes with
  | nil => intro m; simp
  | cons nd rest ih =>
    intro m
    rw [List.foldl_cons, ih, List.flatMap_cons]
    simp [addNode, List.append_assoc]

theorem mapLookup_replace_ne (m : List (Nat × String)) (h : Nat) (nd : String)
    (h2 : Nat) (hne : h2 ≠ h) :
    mapLookup (m.map (fun p => if p.1 = h then (h, nd) else p)) h2
      = mapLookup m h2 := by
  induction m with
  | nil => rfl
  | cons p rest ih =>
    by_cases hp : p.1 = h
    · rw [List.map_cons, if_pos hp, mapLookup, mapLookup,
        List.find?_cons_of_neg _ (by simpa using (Ne.symm hne)),
        List.find?_cons_of_neg _ (by simp [hp]; omega)]
      rw [mapLookup, mapLookup] at ih
      exact ih
    · rw [List.map_cons, if_neg hp, mapLookup, mapLookup]
      by_cases hp2 : p.1 = h2
      · rw [List.find?_cons_of_pos _ (by simp [hp2]),
          List.find?_cons_of_pos _ (by simp [hp2])]
      · rw [List.find?_cons_of_neg _ (by simp [hp2]),
          List.find?_cons_of_neg _ (by simp [hp2])]
        rw [mapLookup, mapLookup] at ih
        exact ih

theorem mapLookup_replace_self (m : List (Nat × String)) (h : Nat) (nd : String)
    (hmem : h ∈ m.map (fun p => p.1)) :
    mapLookup (m.map (fun p => if p.1 = h then (h, nd) else p)) h = nd := by
  induction m with
  | nil => simp at hmem
  | cons p rest ih =>
    by_cases hp : p.1 = h
    · rw [List.map_cons, if_pos hp, mapLookup, List.find?_cons_of_pos _ (by simp)]
    · rw [List.map_cons, if_neg hp, mapLookup,
        List.find?_cons_of_neg _ (by simp [hp])]
      rw [mapLookup] at ih
      apply ih
      simp only [List.map_cons, List.mem_cons] at hmem
      rcases hmem with hmem | hmem
      · exact absurd hmem.symm (by simpa using hp)
      · exact hmem

theorem mapLookup_append_ne (m : List (Nat × String)) (h : Nat) (nd : String)
    (h2 : Nat) (hne : h2 ≠ h) :
    mapLookup (m ++ [(h, nd)]) h2 = mapLookup m h2 := by
  rw [mapLookup, mapLookup, List.find?_append]
  rcases hfind : List.find? (fun p => decide (p.1 = h2)) m with _ | q
  · rw [hfind, Option.none_or,
      List.find?_cons_of_neg _ (by simpa using (Ne.symm hne))]
    rfl
  · rw [hfind]
    rfl

theorem mapLookup_append_self (m : List (Nat × String)) (h : Nat) (nd : String)
    (hnone : List.find? (fun p => decide (p.1 = h)) m = none) :
    mapLookup (m ++ [(h, nd)]) h = nd := by
  rw [mapLookup, List.find?_append, hnone, Option.none_or,
    List.find?_cons_of_pos _ (by simp)]

/-- A Go map assignment: the assigned key reads back the assigned node, every
other key is unaffected. -/
theorem mapLookup_mapInsert (m : List (Nat × String)) (h : Nat) (nd : String)
    (h2 : Nat) :
    mapLookup (mapInsert m h nd) h2 = if h2 = h then nd else mapLookup m h2 := by
  rw [mapInsert]
  by_cases hany : m.any (fun p => decide (p.1 = h)) = true
  · rw [if_pos hany]
    by_cases h2h : h2 = h
    · subst h2h
      rw [if_pos rfl]
      apply mapLookup_replace_self
      obtain ⟨p, hp, hph⟩ := List.any_eq_true.mp hany
      simp only [decide_eq_true_eq] at hph
      exact hph ▸ List.mem_map_of_mem (fun p => p.1) hp
    · rw [if_neg h2h]
      exact mapLookup_replace_ne m h nd h2 h2h
  · rw [if_neg hany]
    by_cases h2h : h2 = h
    · subst h2h
      rw [if_pos rfl]
      apply mapLookup_append_self
      rw [List.find?_eq_none]
      intro p hp
      simp only [decide_eq_true_eq]
      intro hcontra
      exact hany (List.any_eq_true.mpr ⟨p, hp, by simpa using hcontra⟩)
    · rw [if_neg h2h]
      exact mapLookup_append_ne m h nd h2 h2h

theorem foldl_mapInsert_pairs (key : String) :
    ∀ (hs : List Nat) (m0 : List (Nat × String)),
    hs.foldl (fun hm h => mapInsert hm h key) m0
      = (hs.map (fun h => (h, key))).foldl (fun hm p => mapInsert hm p.1 p.2) m0 := by
  intro hs
  induction hs with
  | nil => intro m0; rfl
  | cons h t ih => intro m0; rw [List.foldl_cons, List.map_cons, List.foldl_cons, ih]

theorem foldl_addNode_hashMap (hash : String → Nat) (nodes : List String) :
    ∀ m : Ring, (nodes.foldl (addNode hash) m).hashMap
      = (insertedPairs hash m.replicas nodes).foldl
          (fun hm p => mapInsert hm p.1 p.2) m.hashMap := by
  induction nodes with
  | nil => intro m; rfl
  | cons nd rest ih =>
    intro m
    rw [List.foldl_cons, ih, addNode_replicas]
    have hhd : (addNode hash m nd).hashMap
        = ((virtualHashes hash m.replicas nd).map (fun h => (h, nd))).foldl
            (fun hm p => mapInsert hm p.1 p.2) m.hashMap := by
      rw [addNode]
      exact foldl_mapInsert_pairs nd (virtualHashes hash m.replicas nd) m.hashMap
    rw [hhd]
    conv_rhs => rw [insertedPairs, List.flatMap_cons, List.foldl_append]
    rfl

theorem lookup_foldl_insert_not_mem :
    ∀ (ps : List (Nat × String)) (m0 : List (Nat × String)) (h : Nat),
    h ∉ ps.map (fun p => p.1) →
    mapLookup (ps.foldl (fun hm p => mapInsert hm p.1 p.2) m0) h
      = mapLookup m0 h := by
  intro ps
  induction ps with
  | nil => intro m0 h _; rfl
  | cons q t ih =>
    intro m0 h hnm
    rw [List.foldl_cons, ih _ _ (fun hc => hnm (by simp [hc])),
      mapLookup_mapInsert, if_neg (fun hc => hnm (by simp [hc]))]

theorem lookup_foldl_insert_mem :
    ∀ (ps : List (Nat × String)) (m0 : List (Nat × String)) (h : Nat)
      (nd : String),
    (h, nd) ∈ ps → (ps.map (fun p => p.1)).Nodup →
    mapLookup (ps.foldl (fun hm p => mapInsert hm p.1 p.2) m0) h = nd := by
  intro ps
  induction ps with
  | nil => intro m0 h nd hmem _; simp at hmem
  | cons q t ih =>
    intro m0 h nd hmem hnd
    rw [List.foldl_cons]
    rcases List.mem_cons.mp hmem with hmem | hmem
    · have hq : q.1 = h := by rw [← hmem]
      have hnt : h ∉ t.map (fun p => p.1) := by
        rw [List.map_cons] at hnd
        exact hq ▸ hnd.not_mem
      rw [lookup_foldl_insert_not_mem t _ h hnt, mapLookup_mapInsert, ← hmem,
        if_pos rfl]
    · exact ih _ h nd hmem (by rw [List.map_cons] at hnd; exact hnd.of_cons)

theorem virtualHashes_length (hash : String → Nat) (replicas : Nat)
    (key : String) : (virtualHashes hash replicas key).length = replicas := by
  rw [virtualHashes, List.length_map, List.length_range]

/-- Counting the keys a given node owns: with one entry per virtual hash and
distinct nodes, exactly `R` hashes look up to each listed node. -/
theorem length_filter_flatMap_lookup (gen : String → List Nat)
    (lkp : Nat → String) (R : Nat) (hlen : ∀ nd, (gen nd).length = R) :
    ∀ (nodes : List String) (nd : String), nd ∈ nodes → nodes.Nodup →
    (∀ nd2 ∈ nodes, ∀ hk ∈ gen nd2, lkp hk = nd2) →
    ((nodes.flatMap gen).filter (fun hk => decide (lkp hk = nd))).length = R := by
  intro nodes
  induction nodes with
  | nil => intro nd hmem _ _; simp at hmem
  | cons nd0 rest ih =>
    intro nd hmem hnd hlkp
    rw [List.flatMap_cons, List.filter_append, List.length_append]
    rcases List.mem_cons.mp hmem with rfl | hmem
    · have h1 : (gen nd).filter (fun hk => decide (lkp hk = nd)) = gen nd := by
        rw [List.filter_eq_self]
        intro hk hhk
        simpa using hlkp nd (by simp) hk hhk
      have h2 : ((rest.flatMap gen).filter (fun hk => decide (lkp hk = nd))) = [] := by
        rw [List.filter_eq_nil_iff]
        intro hk hhk
        obtain ⟨nd2, hnd2, hkin⟩ := List.mem_flatMap.mp hhk
        have : lkp hk = nd2 := hlkp nd2 (by simp [hnd2]) hk hkin
        simp only [this, decide_eq_true_eq]
        intro hcontra
        subst hcontra
        exact hnd.not_mem hnd2
      rw [h1, h2, hlen nd]
      simp
    · have hne : nd0 ≠ nd := by
        intro hcontra
        subst hcontra
        exact hnd.not_mem hmem
      have h1 : (gen nd0).filter (fun hk => decide (lkp hk = nd)) = [] := by
        rw [List.filter_eq_nil_iff]
        intro hk hhk
        have : lkp hk = nd0 := hlkp nd0 (by simp) hk hhk
        simp [this, hne]
      rw [h1]
      simp only [List.length_nil, Nat.zero_add]
      exact ih nd hmem hnd.of_cons
        (fun nd2 h2 hk hkin => hlkp nd2 (by simp [h2]) hk hkin)

theorem insertedPairs_map_fst (hash : String → Nat) (replicas : Nat) :
    ∀ nodes : List String,
    (insertedPairs hash replicas nodes).map (fun p => p.1)
      = nodes.flatMap (fun nd => virtualHashes hash replicas nd) := by
  intro nodes
  induction nodes with
  | nil => rfl
  | cons nd rest ih =>
    rw [insertedPairs, List.flatMap_cons, List.map_append, List.flatMap_cons,
      List.map_map, ← insertedPairs, ih]
    congr 1
    show List.map (fun h => h) _ = _
    exact List.map_id _

end ConsistentHash

/-- C6: adding a duplicate-free node set (with collision-free virtual hashes)
to a fresh ring creates exactly `replicas` hash entries per node — the key
list is, up to order, one entry `hash(string(i) ++ node)` for each node and
each `i < replicas`, each such hash maps back to its node, and exactly
`replicas` of the stored hashes look up to each node — the key list is sorted
non-decreasingly, and `Get` returns the node of the first stored hash
`≥ hash(key)` (wrapping to the front when none is, `""` on an empty ring), the
binary search agreeing with the declarative first-match reading. -/
theorem c6_ring_add_replicas_and_get (hash : String → Nat) (replicas : Nat)
    (nodes : List String) (hnodes : nodes.Nodup)
    (hinj : (nodes.flatMap
      (fun nd => ConsistentHash.virtualHashes hash replicas nd)).Nodup) :
    ((ConsistentHash.Ring.New replicas).Add hash nodes).keys.Sorted
      (fun a b => a ≤ b) ∧
    ((ConsistentHash.Ring.New replicas).Add hash nodes).keys.Perm
      (nodes.flatMap (fun nd => ConsistentHash.virtualHashes hash replicas nd)) ∧
    (∀ nd ∈ nodes, ∀ i, i < replicas →
      ConsistentHash.mapLookup
        ((ConsistentHash.Ring.New replicas).Add hash nodes).hashMap
        (hash (toString i ++ nd)) = nd) ∧
    (∀ nd ∈ nodes,
      (((ConsistentHash.Ring.New replicas).Add hash nodes).keys.filter
        (fun hk => decide (ConsistentHash.mapLookup
          ((ConsistentHash.Ring.New replicas).Add hash nodes).hashMap hk
          = nd))).length = replicas) ∧
    (∀ key, ((ConsistentHash.Ring.New replicas).Add hash nodes).Get hash key
      = ((ConsistentHash.Ring.New replicas).Add hash nodes).getSpec hash key) := by
  have hkeys : ((ConsistentHash.Ring.New replicas).Add hash nodes).keys
      = (nodes.flatMap
          (fun nd => ConsistentHash.virtualHashes hash replicas nd)).mergeSort
        (fun a b => a ≤ b) := by
    rw [ConsistentHash.Ring.Add]
    simp only
    rw [ConsistentHash.foldl_addNode_keys]
    rfl
  have hmap : ((ConsistentHash.Ring.New replicas).Add hash nodes).hashMap
      = (ConsistentHash.insertedPairs hash replicas nodes).foldl
          (fun hm p => ConsistentHash.mapInsert hm p.1 p.2) [] := by
    rw [ConsistentHash.Ring.Add]
    simp only
    rw [ConsistentHash.foldl_addNode_hashMap]
    rfl
  have hsorted : ((ConsistentHash.Ring.New replicas).Add hash nodes).keys.Sorted
      (fun a b => a ≤ b) := by
    rw [hkeys]
    exact List.sorted_mergeSort' _
  have hperm : ((ConsistentHash.Ring.New replicas).Add hash nodes).keys.Perm
      (nodes.flatMap (fun nd => ConsistentHash.virtualHashes hash replicas nd)) := by
    rw [hkeys]
    exact List.mergeSort_perm _ _
  have hlkp : ∀ nd2 ∈ nodes,
      ∀ hk ∈ ConsistentHash.virtualHashes hash replicas nd2,
      ConsistentHash.mapLookup
        ((ConsistentHash.Ring.New replicas).Add hash nodes).hashMap hk = nd2 := by
    intro nd2 hnd2 hk hhk
    rw [hmap]
    apply ConsistentHash.lookup_foldl_insert_mem
    · rw [ConsistentHash.insertedPairs]
      exact List.mem_flatMap.mpr ⟨nd2, hnd2, List.mem_map_of_mem _ hhk⟩
    · rw [ConsistentHash.insertedPairs_map_fst]
      exact hinj
  refine ⟨hsorted, hperm, ?_, ?_, ?_⟩
  · intro nd hnd i hi
    exact hlkp nd hnd _ (List.mem_map_of_mem _ (List.mem_range.mpr hi))
  · intro nd hnd
    rw [(hperm.filter _).length_eq]
    exact ConsistentHash.length_filter_flatMap_lookup
      (ConsistentHash.virtualHashes hash replicas)
      (ConsistentHash.mapLookup
        ((ConsistentHash.Ring.New replicas).Add hash nodes).hashMap)
      replicas (ConsistentHash.virtualHashes_length hash replicas)
      nodes nd hnd hnodes hlkp
  · intro key
    exact ConsistentHash.get_eq_getSpec hash _ key hsorted

/-- Witness for C6: a concrete two-node ring with two replicas and a
byte-fold hash; the virtual hash of replica `1` of node `"a"` maps back to
`"a"`. -/
theorem c6_ring_add_replicas_and_get_witness :
    ConsistentHash.mapLookup
      ((ConsistentHash.Ring.New 2).Add
        (fun s => (s.data.map Char.toNat).foldl (fun a c => a * 256 + c) 0)
        ["a", "b"]).hashMap
      ((fun s => (s.data.map Char.toNat).foldl (fun a c => a * 256 + c) 0)
        (toString 1 ++ "a")) = "a" :=
  (c6_ring_add_replicas_and_get
    (fun s => (s.data.map Char.toNat).foldl (fun a c => a * 256 + c) 0)
    2 ["a", "b"] (by decide) (by decide)).2.2.1 "a" (by decide) 1 (by decide)

/-! ## Theorems: single-flight -/

namespace Singleflight

theorem getElem?_set_self {α : Type} (l : List α) (i : Nat) (a : α)
    (h : i < l.length) : (l.set i a)[i]? = some a := by
  rw [List.getElem?_set]
  simp [h]

theorem getElem?_set_ne {α : Type} (l : List α) (i j : Nat) (a : α)
    (h : i ≠ j) : (l.set i a)[j]? = l[j]? := by
  rw [List.getElem?_set, if_neg h]

theorem getD_set_self {α : Type} (l : List α) (i : Nat) (a d : α)
    (h : i < l.length) : (l.set i a).getD i d = a := by
  rw [List.getD_eq_getElem?_getD, getElem?_set_self l i a h]
  rfl

theorem getD_set_ne {α : Type} (l : List α) (i j : Nat) (a d : α)
    (h : i ≠ j) : (l.set i a).getD j d = l.getD j d := by
  rw [List.getD_eq_getElem?_getD, getElem?_set_ne l i j a h,
    ← List.getD_eq_getElem?_getD]

theorem getD_append_lt {α : Type} (l : List α) (a d : α) (i : Nat)
    (h : i < l.length) : (l ++ [a]).getD i d = l.getD i d := by
  rw [List.getD_eq_getElem?_getD, List.getElem?_append_left h,
    ← List.getD_eq_getElem?_getD]

theorem getD_append_len {α : Type} (l : List α) (a d : α) :
    (l ++ [a]).getD l.length d = a := by
  rw [List.getD_eq_getElem?_getD, List.getElem?_append_right (le_refl _)]
  simp

theorem getD_of_le {α : Type} (l : List α) (d : α) (i : Nat)
    (h : l.length ≤ i) : l.getD i d = d := by
  rw [List.getD_eq_getElem?_getD, List.getElem?_eq_none h]
  rfl

theorem length_filter_set_true {α : Type} (p : α → Bool) :
    ∀ (l : List α) (g : Nat) (c d : α), g < l.length →
    p (l.getD g d) = false → p c = true →
    ((l.set g c).filter p).length = (l.filter p).length + 1 := by
  intro l
  induction l with
  | nil => intro g c d hg _ _; simp at hg
  | cons x xs ih =>
    intro g c d hg hold hnew
    cases g with
    | zero =>
      simp only [List.getD_cons_zero] at hold
      simp [List.filter_cons, hold, hnew]
    | succ g =>
      simp only [List.getD_cons_succ] at hold
      simp only [List.length_cons, Nat.succ_lt_succ_iff] at hg
      rw [List.set_cons_succ, List.filter_cons, List.filter_cons]
      rcases hx : p x with _ | _
      · simp only [Bool.false_eq_true, if_neg]
        exact ih g c d hg hold hnew
      · simp only [if_pos]
        rw [List.length_cons, List.length_cons, ih g c d hg hold hnew]

theorem length_filter_set_same {α : Type} (p : α → Bool) :
    ∀ (l : List α) (g : Nat) (c d : α), g < l.length →
    p c = p (l.getD g d) →
    ((l.set g c).filter p).length = (l.filter p).length := by
  intro l
  induction l with
  | nil => intro g c d hg _; simp at hg
  | cons x xs ih =>
    intro g c d hg hsame
    cases g with
    | zero =>
      simp only [List.getD_cons_zero] at hsame
      rw [List.set_cons_zero, List.filter_cons, List.filter_cons, hsame]
      rcases hx : p x with _ | _ <;> simp
    | succ g =>
      simp only [List.getD_cons_succ] at hsame
      simp only [List.length_cons, Nat.succ_lt_succ_iff] at hg
      rw [List.set_cons_succ, List.filter_cons, List.filter_cons]
      rcases hx : p x with _ | _
      · simp only [Bool.false_eq_true, if_neg]
        exact ih g c d hg hsame
      · simp only [if_pos]
        rw [List.length_cons, List.length_cons, ih g c d hg hsame]

theorem one_le_length_filter {α : Type} (p : α → Bool) (l : List α) (g : Nat)
    (d : α) (hg : g < l.length) (hp : p (l.getD g d) = true) :
    1 ≤ (l.filter p).length := by
  have hmem : l.getD g d ∈ l := by
    rw [List.getD_eq_getElem l d hg]
    exact List.getElem_mem hg
  have : l.getD g d ∈ l.filter p := List.mem_filter.mpr ⟨hmem, hp⟩
  have := List.length_pos.mpr (List.ne_nil_of_mem this)
  omega

/-- The invariant holds initially. -/
theorem inv_init (f : Nat → Nat) (n : Nat) : Inv f (init n) := by
  have hph : ∀ (t : Nat) (ph : Phase), (init n).threads[t]? = some ph →
      ph = .start := by
    intro t ph hph
    exact List.eq_of_mem_replicate (List.getElem?_mem hph)
  constructor
  · intro t ph g h1 h2
    rw [hph t ph h1] at h2
    exact Option.noConfusion h2
  · intro t1 t2 ph1 ph2 g h1 h2 hr1 hr2
    rw [hph t1 ph1 h1] at hr1
    rcases hr1 with h | h | h <;> exact Phase.noConfusion h
  · intro t g h
    rcases h with h | h <;> exact Phase.noConfusion (hph t _ h)
  · intro t g h
    exact Phase.noConfusion (hph t _ h)
  · intro t g h
    exact Phase.noConfusion (hph t _ h)
  · intro t g h
    exact Phase.noConfusion (hph t _ h)
  · intro g h
    exact Bool.noConfusion h
  · intro t g v h
    exact Phase.noConfusion (hph t _ h)
  · intro g h
    exact Option.noConfusion h
  · rfl

theorem set_lookup_cases {α : Type} (l : List α) (t t2 : Nat) (ph : α)
    (ph2 : α) (h : (l.set t ph)[t2]? = some ph2) :
    (t2 = t ∧ t < l.length ∧ ph2 = ph) ∨ (t2 ≠ t ∧ l[t2]? = some ph2) := by
  by_cases he : t2 = t
  · subst he
    rw [List.getElem?_set, if_pos rfl] at h
    split at h
    · exact Or.inl ⟨rfl, by assumption, (Option.some_inj.mp h).symm⟩
    · exact Option.noConfusion h
  · exact Or.inr ⟨he, by rwa [getElem?_set_ne _ _ _ _ (Ne.symm he)] at h⟩

theorem inv_step_start_wait (f : Nat → Nat) (s : GState) (t g0 : Nat)
    (inv : Inv f s) (hph : s.threads[t]? = some .start)
    (hslot : s.mapSlot = some g0) :
    Inv f (s.setPhase t (.waiting g0)) := by
  constructor
  · intro t2 ph g h1 h2
    rcases set_lookup_cases _ _ _ _ _ h1 with ⟨rfl, _, rfl⟩ | ⟨_, hold⟩
    · obtain rfl : g0 = g := by simpa [phaseGenOf] using h2
      exact inv.slotRange _ hslot
    · exact inv.inRange t2 ph g hold h2
  · intro t1 t2 ph1 ph2 g h1 h2 hr1 hr2
    rcases set_lookup_cases _ _ _ _ _ h1 with ⟨rfl, _, rfl⟩ | ⟨hne1, hold1⟩
    · rcases hr1 with h | h | h <;> exact Phase.noConfusion h
    · rcases set_lookup_cases _ _ _ _ _ h2 with ⟨rfl, _, rfl⟩ | ⟨hne2, hold2⟩
      · rcases hr2 with h | h | h <;> exact Phase.noConfusion h
      · exact inv.uniqueRunner t1 t2 ph1 ph2 g hold1 hold2 hr1 hr2
  · intro t2 g h
    apply inv.regMap t2 g
    rcases h with h | h
    · rcases set_lookup_cases _ _ _ _ _ h with ⟨rfl, _, heq⟩ | ⟨_, hold⟩
      · exact Phase.noConfusion heq
      · exact Or.inl hold
    · rcases set_lookup_cases _ _ _ _ _ h with ⟨rfl, _, heq⟩ | ⟨_, hold⟩
      · exact Phase.noConfusion heq
      · exact Or.inr hold
  · intro t2 g h
    rcases set_lookup_cases _ _ _ _ _ h with ⟨rfl, _, heq⟩ | ⟨_, hold⟩
    · exact Phase.noConfusion heq
    · exact inv.regNotInvoked t2 g hold
  · intro t2 g h
    rcases set_lookup_cases _ _ _ _ _ h with ⟨rfl, _, heq⟩ | ⟨_, hold⟩
    · exact Phase.noConfusion heq
    · exact inv.ranState t2 g hold
  · intro t2 g h
    rcases set_lookup_cases _ _ _ _ _ h with ⟨rfl, _, heq⟩ | ⟨_, hold⟩
    · exact Phase.noConfusion heq
    · exact inv.deletedState t2 g hold
  · exact inv.doneState
  · intro t2 g v h
    rcases set_lookup_cases _ _ _ _ _ h with ⟨rfl, _, heq⟩ | ⟨_, hold⟩
    · exact Phase.noConfusion heq
    · exact inv.finVal t2 g v hold
  · exact inv.slotRange
  · exact inv.invCount

theorem runnerPhase_phaseGenOf {ph : Phase} {g : Nat} (h : runnerPhase ph g) :
    phaseGenOf ph = some g := by
  rcases h with h | h | h <;> (subst h; rfl)

theorem inv_step_start_create (f : Nat → Nat) (s : GState) (t : Nat)
    (inv : Inv f s) (hph : s.threads[t]? = some .start)
    (hslot : s.mapSlot = none) :
    Inv f { s with mapSlot := some s.gens.length,
                   gens := s.gens ++ [newCall],
                   threads := s.threads.set t (.runner s.gens.length) } := by
  have hlen : (s.gens ++ [newCall]).length = s.gens.length + 1 := by
    simp
  constructor
  · intro t2 ph g h1 h2
    simp only at h1
    rcases set_lookup_cases _ _ _ _ _ h1 with ⟨rfl, _, rfl⟩ | ⟨_, hold⟩
    · obtain rfl : s.gens.length = g := by simpa [phaseGenOf] using h2
      simp only [hlen]
      omega
    · have := inv.inRange t2 ph g hold h2
      simp only [hlen]
      omega
  · intro t1 t2 ph1 ph2 g h1 h2 hr1 hr2
    simp only at h1 h2
    rcases set_lookup_cases _ _ _ _ _ h1 with ⟨rfl, _, rfl⟩ | ⟨hne1, hold1⟩
    · rcases set_lookup_cases _ _ _ _ _ h2 with ⟨rfl, _, _⟩ | ⟨hne2, hold2⟩
      · rfl
      · exfalso
        obtain rfl : g = s.gens.length := by
          rcases hr1 with h | h | h
          · exact (Phase.runner.injEq _ _).mp h.symm
          · exact absurd h (by simp)
          · exact absurd h (by simp)
        have := inv.inRange t2 ph2 _ hold2 (runnerPhase_phaseGenOf hr2)
        omega
    · rcases set_lookup_cases _ _ _ _ _ h2 with ⟨rfl, _, rfl⟩ | ⟨hne2, hold2⟩
      · exfalso
        obtain rfl : g = s.gens.length := by
          rcases hr2 with h | h | h
          · exact (Phase.runner.injEq _ _).mp h.symm
          · exact absurd h (by simp)
          · exact absurd h (by simp)
        have := inv.inRange t1 ph1 _ hold1 (runnerPhase_phaseGenOf hr1)
        omega
      · exact inv.uniqueRunner t1 t2 ph1 ph2 g hold1 hold2 hr1 hr2
  · intro t2 g h
    simp only at h ⊢
    rcases h with h | h
    · rcases set_lookup_cases _ _ _ _ _ h with ⟨rfl, _, heq⟩ | ⟨_, hold⟩
      · obtain rfl : g = s.gens.length := by
          simpa using (Phase.runner.injEq _ _).mp heq
        rfl
      · exact absurd (hslot ▸ inv.regMap t2 g (Or.inl hold)) (by simp)
    · rcases set_lookup_cases _ _ _ _ _ h with ⟨rfl, _, heq⟩ | ⟨_, hold⟩
      · exact Phase.noConfusion heq
      · exact absurd (hslot ▸ inv.regMap t2 g (Or.inr hold)) (by simp)
  · intro t2 g h
    simp only at h
    rcases set_lookup_cases _ _ _ _ _ h with ⟨rfl, _, heq⟩ | ⟨_, hold⟩
    · obtain rfl : g = s.gens.length := by
        simpa using (Phase.runner.injEq _ _).mp heq
      show ((s.gens ++ [newCall]).getD s.gens.length newCall).invoked = false ∧
        ((s.gens ++ [newCall]).getD s.gens.length newCall).done = false
      rw [getD_append_len]
      exact ⟨rfl, rfl⟩
    · exact absurd (hslot ▸ inv.regMap t2 g (Or.inl hold)) (by simp)
  · intro t2 g h
    simp only at h
    rcases set_lookup_cases _ _ _ _ _ h with ⟨rfl, _, heq⟩ | ⟨_, hold⟩
    · exact Phase.noConfusion heq
    · exact absurd (hslot ▸ inv.regMap t2 g (Or.inr hold)) (by simp)
  · intro t2 g h
    simp only at h ⊢
    rcases set_lookup_cases _ _ _ _ _ h with ⟨rfl, _, heq⟩ | ⟨_, hold⟩
    · exact Phase.noConfusion heq
    · obtain ⟨d1, d2, d3, d4⟩ := inv.deletedState t2 g hold
      have hg : g < s.gens.length :=
        inv.inRange t2 _ g hold (by rfl)
      have hgen : (s.gens ++ [newCall]).getD g newCall = s.gens.getD g newCall :=
        getD_append_lt _ _ _ _ hg
      refine ⟨?_, ?_, ?_, ?_⟩
      · show ((s.gens ++ [newCall]).getD g newCall).invoked = true
        rw [hgen]; exact d1
      · show ((s.gens ++ [newCall]).getD g newCall).val = some (f g)
        rw [hgen]; exact d2
      · show ((s.gens ++ [newCall]).getD g newCall).done = false
        rw [hgen]; exact d3
      · intro hc
        have : s.gens.length = g := by simpa using hc
        omega
  · intro g h
    simp only [GState.gen] at h ⊢
    rcases Nat.lt_trichotomy g s.gens.length with hg | hg | hg
    · rw [getD_append_lt _ _ _ _ hg] at h ⊢
      obtain ⟨d1, d2, d3⟩ := inv.doneState g h
      refine ⟨d1, d2, fun hc => ?_⟩
      have : s.gens.length = g := by simpa using hc
      omega
    · subst hg
      rw [getD_append_len] at h
      exact Bool.noConfusion h
    · rw [getD_of_le _ _ _ (by simp; omega)] at h
      exact Bool.noConfusion h
  · intro t2 g v h
    simp only at h
    rcases set_lookup_cases _ _ _ _ _ h with ⟨rfl, _, heq⟩ | ⟨_, hold⟩
    · exact Phase.noConfusion heq
    · obtain ⟨f1, f2⟩ := inv.finVal t2 g v hold
      have hg : g < s.gens.length :=
        inv.inRange t2 _ g hold (by rfl)
      refine ⟨f1, ?_⟩
      show ((s.gens ++ [newCall]).getD g newCall).done = true
      rw [getD_append_lt _ _ _ _ hg]
      exact f2
  · intro g h
    simp only at h
    obtain rfl : s.gens.length = g := by simpa using h
    simp only [hlen]
    omega
  · simp only [List.filter_append]
    rw [inv.invCount]
    simp [newCall]

theorem inv_step_runner (f : Nat → Nat) (s : GState) (t g0 : Nat)
    (inv : Inv f s) (hph : s.threads[t]? = some (.runner g0)) :
    Inv f { s with gens := s.gens.set g0 { invoked := true, done := false,
                                           val := some (f g0) },
                   invocations := s.invocations + 1,
                   threads := s.threads.set t (.ranFn g0) } := by
  have hg0 : g0 < s.gens.length := inv.inRange t _ g0 hph (by rfl)
  have hslot : s.mapSlot = some g0 := inv.regMap t g0 (Or.inl hph)
  obtain ⟨hni, hnd⟩ := inv.regNotInvoked t g0 hph
  have hrt : runnerPhase (.runner g0) g0 := Or.inl rfl
  constructor
  · intro t2 ph g h1 h2
    simp only [List.length_set] at *
    rcases set_lookup_cases _ _ _ _ _ h1 with ⟨rfl, _, rfl⟩ | ⟨_, hold⟩
    · obtain rfl : g0 = g := by simpa [phaseGenOf] using h2
      exact hg0
    · exact inv.inRange t2 ph g hold h2
  · intro t1 t2 ph1 ph2 g h1 h2 hr1 hr2
    simp only at h1 h2
    rcases set_lookup_cases _ _ _ _ _ h1 with ⟨rfl, _, rfl⟩ | ⟨hne1, hold1⟩
    · rcases set_lookup_cases _ _ _ _ _ h2 with ⟨rfl, _, _⟩ | ⟨hne2, hold2⟩
      · rfl
      · have hgg : g0 = g := by
          rcases hr1 with h | h | h
          · exact absurd h (by simp)
          · exact (Phase.ranFn.injEq _ _).mp h
          · exact absurd h (by simp)
        subst hgg
        exact inv.uniqueRunner _ t2 _ ph2 g0 hph hold2 hrt hr2
    · rcases set_lookup_cases _ _ _ _ _ h2 with ⟨rfl, _, rfl⟩ | ⟨hne2, hold2⟩
      · have hgg : g0 = g := by
          rcases hr2 with h | h | h
          · exact absurd h (by simp)
          · exact (Phase.ranFn.injEq _ _).mp h
          · exact absurd h (by simp)
        subst hgg
        exact inv.uniqueRunner t1 _ ph1 _ g0 hold1 hph hr1 hrt
      · exact inv.uniqueRunner t1 t2 ph1 ph2 g hold1 hold2 hr1 hr2
  · intro t2 g h
    simp only at h ⊢
    rcases h with h | h
    · rcases set_lookup_cases _ _ _ _ _ h with ⟨rfl, _, heq⟩ | ⟨_, hold⟩
      · exact Phase.noConfusion heq
      · exact inv.regMap t2 g (Or.inl hold)
    · rcases set_lookup_cases _ _ _ _ _ h with ⟨rfl, _, heq⟩ | ⟨_, hold⟩
      · have hgg : g = g0 := by simpa using (Phase.ranFn.injEq _ _).mp heq
        rw [hgg]
        exact hslot
      · exact inv.regMap t2 g (Or.inr hold)
  · intro t2 g h
    simp only [GState.gen] at h ⊢
    rcases set_lookup_cases _ _ _ _ _ h with ⟨rfl, _, heq⟩ | ⟨hne, hold⟩
    · exact Phase.noConfusion heq
    · have hgne : g ≠ g0 := by
        intro hc
        subst hc
        exact hne (inv.uniqueRunner t2 _ _ _ g hold hph (Or.inl rfl) hrt)
      rw [getD_set_ne _ _ _ _ _ (Ne.symm hgne)]
      exact inv.regNotInvoked t2 g hold
  · intro t2 g h
    simp only [GState.gen] at h ⊢
    rcases set_lookup_cases _ _ _ _ _ h with ⟨rfl, _, heq⟩ | ⟨hne, hold⟩
    · have hgg : g = g0 := by simpa using (Phase.ranFn.injEq _ _).mp heq
      subst hgg
      rw [getD_set_self _ _ _ _ hg0]
      exact ⟨rfl, rfl, rfl⟩
    · have hgne : g ≠ g0 := by
        intro hc
        subst hc
        exact hne (inv.uniqueRunner t2 _ _ _ g hold hph (Or.inr (Or.inl rfl)) hrt)
      rw [getD_set_ne _ _ _ _ _ (Ne.symm hgne)]
      exact inv.ranState t2 g hold
  · intro t2 g h
    simp only [GState.gen] at h ⊢
    rcases set_lookup_cases _ _ _ _ _ h with ⟨rfl, _, heq⟩ | ⟨hne, hold⟩
    · exact Phase.noConfusion heq
    · have hgne : g ≠ g0 := by
        intro hc
        subst hc
        exact hne (inv.uniqueRunner t2 _ _ _ g hold hph (Or.inr (Or.inr rfl)) hrt)
      rw [getD_set_ne _ _ _ _ _ (Ne.symm hgne)]
      exact inv.deletedState t2 g hold
  · intro g h
    simp only [GState.gen] at h ⊢
    by_cases hgg : g = g0
    · subst hgg
      rw [getD_set_self _ _ _ _ hg0] at h
      exact Bool.noConfusion h
    · rw [getD_set_ne _ _ _ _ _ (Ne.symm hgg)] at h ⊢
      exact inv.doneState g h
  · intro t2 g v h
    simp only [GState.gen] at h ⊢
    rcases set_lookup_cases _ _ _ _ _ h with ⟨rfl, _, heq⟩ | ⟨hne, hold⟩
    · exact Phase.noConfusion heq
    · obtain ⟨f1, f2⟩ := inv.finVal t2 g v hold
      by_cases hgg : g = g0
      · subst hgg
        have hnd2 : (s.gen g).done = false := hnd
        have f3 : (s.gen g).done = true := f2
        rw [hnd2] at f3
        exact Bool.noConfusion f3
      · rw [getD_set_ne _ _ _ _ _ (Ne.symm hgg)]
        exact ⟨f1, f2⟩
  · intro g h
    simp only [List.length_set] at *
    exact inv.slotRange g h
  · simp only
    rw [length_filter_set_true (fun c => c.invoked) s.gens g0 _ newCall hg0 hni rfl,
      inv.invCount]

theorem inv_step_delete (f : Nat → Nat) (s : GState) (t g0 : Nat)
    (inv : Inv f s) (hph : s.threads[t]? = some (.ranFn g0)) :
    Inv f { s with mapSlot := none,
                   threads := s.threads.set t (.deletedRec g0) } := by
  have hg0 : g0 < s.gens.length := inv.inRange t _ g0 hph (by rfl)
  have hslot : s.mapSlot = some g0 := inv.regMap t g0 (Or.inr hph)
  obtain ⟨hi, hv, hd⟩ := inv.ranState t g0 hph
  have hrt : runnerPhase (.ranFn g0) g0 := Or.inr (Or.inl rfl)
  constructor
  · intro t2 ph g h1 h2
    simp only at *
    rcases set_lookup_cases _ _ _ _ _ h1 with ⟨rfl, _, rfl⟩ | ⟨_, hold⟩
    · obtain rfl : g0 = g := by simpa [phaseGenOf] using h2
      exact hg0
    · exact inv.inRange t2 ph g hold h2
  · intro t1 t2 ph1 ph2 g h1 h2 hr1 hr2
    simp only at h1 h2
    rcases set_lookup_cases _ _ _ _ _ h1 with ⟨rfl, _, rfl⟩ | ⟨hne1, hold1⟩
    · rcases set_lookup_cases _ _ _ _ _ h2 with ⟨rfl, _, _⟩ | ⟨hne2, hold2⟩
      · rfl
      · have hgg : g0 = g := by
          rcases hr1 with h | h | h
          · exact absurd h (by simp)
          · exact absurd h (by simp)
          · exact (Phase.deletedRec.injEq _ _).mp h
        subst hgg
        exact inv.uniqueRunner _ t2 _ ph2 g0 hph hold2 hrt hr2
    · rcases set_lookup_cases _ _ _ _ _ h2 with ⟨rfl, _, rfl⟩ | ⟨hne2, hold2⟩
      · have hgg : g0 = g := by
          rcases hr2 with h | h | h
          · exact absurd h (by simp)
          · exact absurd h (by simp)
          · exact (Phase.deletedRec.injEq _ _).mp h
        subst hgg
        exact inv.uniqueRunner t1 _ ph1 _ g0 hold1 hph hr1 hrt
      · exact inv.uniqueRunner t1 t2 ph1 ph2 g hold1 hold2 hr1 hr2
  · intro t2 g h
    simp only at h
    exfalso
    rcases h with h | h
    · rcases set_lookup_cases _ _ _ _ _ h with ⟨rfl, _, heq⟩ | ⟨hne, hold⟩
      · exact Phase.noConfusion heq
      · have hgg : g = g0 := by
          have := inv.regMap t2 g (Or.inl hold)
          rw [hslot] at this
          simpa using this.symm
        subst hgg
        exact hne (inv.uniqueRunner t2 _ _ _ g hold hph (Or.inl rfl) hrt)
    · rcases set_lookup_cases _ _ _ _ _ h with ⟨rfl, _, heq⟩ | ⟨hne, hold⟩
      · exact Phase.noConfusion heq
      · have hgg : g = g0 := by
          have := inv.regMap t2 g (Or.inr hold)
          rw [hslot] at this
          simpa using this.symm
        subst hgg
        exact hne (inv.uniqueRunner t2 _ _ _ g hold hph (Or.inr (Or.inl rfl)) hrt)
  · intro t2 g h
    simp only at h
    rcases set_lookup_cases _ _ _ _ _ h with ⟨rfl, _, heq⟩ | ⟨_, hold⟩
    · exact Phase.noConfusion heq
    · exact inv.regNotInvoked t2 g hold
  · intro t2 g h
    simp only at h
    rcases set_lookup_cases _ _ _ _ _ h with ⟨rfl, _, heq⟩ | ⟨_, hold⟩
    · exact Phase.noConfusion heq
    · exact inv.ranState t2 g hold
  · intro t2 g h
    simp only at h
    rcases set_lookup_cases _ _ _ _ _ h with ⟨rfl, _, heq⟩ | ⟨_, hold⟩
    · obtain rfl : g0 = g := by simpa using (Phase.deletedRec.injEq _ _).mp heq.symm
      exact ⟨hi, hv, hd, by simp⟩
    · obtain ⟨d1, d2, d3, _⟩ := inv.deletedState t2 g hold
      exact ⟨d1, d2, d3, by simp⟩
  · intro g h
    obtain ⟨d1, d2, _⟩ := inv.doneState g h
    exact ⟨d1, d2, by simp⟩
  · intro t2 g v h
    simp only at h
    rcases set_lookup_cases _ _ _ _ _ h with ⟨rfl, _, heq⟩ | ⟨_, hold⟩
    · exact Phase.noConfusion heq
    · exact inv.finVal t2 g v hold
  · intro g h
    exact Option.noConfusion h
  · exact inv.invCount

theorem inv_step_done (f : Nat → Nat) (s : GState) (t g0 : Nat)
    (inv : Inv f s) (hph : s.threads[t]? = some (.deletedRec g0)) :
    Inv f ((s.setGen g0 { s.gen g0 with done := true }).setPhase t
      (.finishedPh g0 (s.valOf g0))) := by
  have hg0 : g0 < s.gens.length := inv.inRange t _ g0 hph (by rfl)
  obtain ⟨hi, hv, hd, hm⟩ := inv.deletedState t g0 hph
  have hrt : runnerPhase (.deletedRec g0) g0 := Or.inr (Or.inr rfl)
  have hval : s.valOf g0 = f g0 := by
    rw [GState.valOf, hv]
    rfl
  constructor
  · intro t2 ph g h1 h2
    simp only [GState.setGen, GState.setPhase, List.length_set] at *
    rcases set_lookup_cases _ _ _ _ _ h1 with ⟨rfl, _, rfl⟩ | ⟨_, hold⟩
    · obtain rfl : g0 = g := by simpa [phaseGenOf] using h2
      exact hg0
    · exact inv.inRange t2 ph g hold h2
  · intro t1 t2 ph1 ph2 g h1 h2 hr1 hr2
    simp only [GState.setGen, GState.setPhase] at h1 h2
    rcases set_lookup_cases _ _ _ _ _ h1 with ⟨rfl, _, rfl⟩ | ⟨hne1, hold1⟩
    · rcases hr1 with h | h | h <;> exact Phase.noConfusion h
    · rcases set_lookup_cases _ _ _ _ _ h2 with ⟨rfl, _, rfl⟩ | ⟨hne2, hold2⟩
      · rcases hr2 with h | h | h <;> exact Phase.noConfusion h
      · exact inv.uniqueRunner t1 t2 ph1 ph2 g hold1 hold2 hr1 hr2
  · intro t2 g h
    simp only [GState.setGen, GState.setPhase] at h ⊢
    rcases h with h | h
    · rcases set_lookup_cases _ _ _ _ _ h with ⟨rfl, _, heq⟩ | ⟨_, hold⟩
      · exact Phase.noConfusion heq
      · exact inv.regMap t2 g (Or.inl hold)
    · rcases set_lookup_cases _ _ _ _ _ h with ⟨rfl, _, heq⟩ | ⟨_, hold⟩
      · exact Phase.noConfusion heq
      · exact inv.regMap t2 g (Or.inr hold)
  · intro t2 g h
    simp only [GState.setGen, GState.setPhase, GState.gen] at h ⊢
    rcases set_lookup_cases _ _ _ _ _ h with ⟨rfl, _, heq⟩ | ⟨hne, hold⟩
    · exact Phase.noConfusion heq
    · have hgne : g ≠ g0 := by
        intro hc
        subst hc
        exact hne (inv.uniqueRunner t2 _ _ _ g hold hph (Or.inl rfl) hrt)
      rw [getD_set_ne _ _ _ _ _ (Ne.symm hgne)]
      exact inv.regNotInvoked t2 g hold
  · intro t2 g h
    simp only [GState.setGen, GState.setPhase, GState.gen] at h ⊢
    rcases set_lookup_cases _ _ _ _ _ h with ⟨rfl, _, heq⟩ | ⟨hne, hold⟩
    · exact Phase.noConfusion heq
    · have hgne : g ≠ g0 := by
        intro hc
        subst hc
        exact hne (inv.uniqueRunner t2 _ _ _ g hold hph (Or.inr (Or.inl rfl)) hrt)
      rw [getD_set_ne _ _ _ _ _ (Ne.symm hgne)]
      exact inv.ranState t2 g hold
  · intro t2 g h
    simp only [GState.setGen, GState.setPhase, GState.gen] at h ⊢
    rcases set_lookup_cases _ _ _ _ _ h with ⟨rfl, _, heq⟩ | ⟨hne, hold⟩
    · exact Phase.noConfusion heq
    · have hgne : g ≠ g0 := by
        intro hc
        subst hc
        exact hne (inv.uniqueRunner t2 _ _ _ g hold hph (Or.inr (Or.inr rfl)) hrt)
      rw [getD_set_ne _ _ _ _ _ (Ne.symm hgne)]
      exact inv.deletedState t2 g hold
  · intro g h
    simp only [GState.setGen, GState.setPhase, GState.gen] at h ⊢
    by_cases hgg : g = g0
    · subst hgg
      rw [getD_set_self _ _ _ _ hg0] at h ⊢
      refine ⟨?_, ?_, ?_⟩
      · have : (s.gen g).invoked = true := hi
        exact this
      · have : (s.gen g).val = some (f g) := hv
        exact this
      · exact hm
    · rw [getD_set_ne _ _ _ _ _ (Ne.symm hgg)] at h ⊢
      exact inv.doneState g h
  · intro t2 g v h
    simp only [GState.setGen, GState.setPhase, GState.gen] at h ⊢
    rcases set_lookup_cases _ _ _ _ _ h with ⟨rfl, _, heq⟩ | ⟨hne, hold⟩
    · obtain ⟨rfl, rfl⟩ : g0 = g ∧ s.valOf g0 = v := by
        have := (Phase.finishedPh.injEq _ _ _ _).mp heq.symm
        exact ⟨this.1, this.2⟩
      rw [getD_set_self _ _ _ _ hg0]
      exact ⟨hval, rfl⟩
    · obtain ⟨f1, f2⟩ := inv.finVal t2 g v hold
      by_cases hgg : g = g0
      · subst hgg
        rw [getD_set_self _ _ _ _ hg0]
        exact ⟨f1, rfl⟩
      · rw [getD_set_ne _ _ _ _ _ (Ne.symm hgg)]
        exact ⟨f1, f2⟩
  · intro g h
    simp only [GState.setGen, GState.setPhase, List.length_set] at *
    exact inv.slotRange g h
  · simp only [GState.setGen, GState.setPhase]
    have hsame : (fun c => c.invoked)
        ({ invoked := (s.gen g0).invoked, done := true,
           val := (s.gen g0).val } : CallRec)
        = (fun c => c.invoked) (s.gens.getD g0 newCall) := rfl
    rw [length_filter_set_same (fun c => c.invoked) s.gens g0
        { invoked := (s.gen g0).invoked, done := true, val := (s.gen g0).val }
        newCall hg0 hsame, inv.invCount]

theorem inv_step_wait_release (f : Nat → Nat) (s : GState) (t g0 : Nat)
    (inv : Inv f s) (hph : s.threads[t]? = some (.waiting g0))
    (hdone : (s.gen g0).done = true) :
    Inv f (s.setPhase t (.finishedPh g0 (s.valOf g0))) := by
  obtain ⟨hi, hv, hm⟩ := inv.doneState g0 hdone
  have hg0 : g0 < s.gens.length := inv.inRange t _ g0 hph (by rfl)
  have hval : s.valOf g0 = f g0 := by
    rw [GState.valOf, hv]
    rfl
  constructor
  · intro t2 ph g h1 h2
    rcases set_lookup_cases _ _ _ _ _ h1 with ⟨rfl, _, rfl⟩ | ⟨_, hold⟩
    · obtain rfl : g0 = g := by simpa [phaseGenOf] using h2
      exact hg0
    · exact inv.inRange t2 ph g hold h2
  · intro t1 t2 ph1 ph2 g h1 h2 hr1 hr2
    rcases set_lookup_cases _ _ _ _ _ h1 with ⟨rfl, _, rfl⟩ | ⟨hne1, hold1⟩
    · rcases hr1 with h | h | h <;> exact Phase.noConfusion h
    · rcases set_lookup_cases _ _ _ _ _ h2 with ⟨rfl, _, rfl⟩ | ⟨hne2, hold2⟩
      · rcases hr2 with h | h | h <;> exact Phase.noConfusion h
      · exact inv.uniqueRunner t1 t2 ph1 ph2 g hold1 hold2 hr1 hr2
  · intro t2 g h
    rcases h with h | h
    · rcases set_lookup_cases _ _ _ _ _ h with ⟨rfl, _, heq⟩ | ⟨_, hold⟩
      · exact Phase.noConfusion heq
      · exact inv.regMap t2 g (Or.inl hold)
    · rcases set_lookup_cases _ _ _ _ _ h with ⟨rfl, _, heq⟩ | ⟨_, hold⟩
      · exact Phase.noConfusion heq
      · exact inv.regMap t2 g (Or.inr hold)
  · intro t2 g h
    rcases set_lookup_cases _ _ _ _ _ h with ⟨rfl, _, heq⟩ | ⟨_, hold⟩
    · exact Phase.noConfusion heq
    · exact inv.regNotInvoked t2 g hold
  · intro t2 g h
    rcases set_lookup_cases _ _ _ _ _ h with ⟨rfl, _, heq⟩ | ⟨_, hold⟩
    · exact Phase.noConfusion heq
    · exact inv.ranState t2 g hold
  · intro t2 g h
    rcases set_lookup_cases _ _ _ _ _ h with ⟨rfl, _, heq⟩ | ⟨_, hold⟩
    · exact Phase.noConfusion heq
    · exact inv.deletedState t2 g hold
  · exact inv.doneState
  · intro t2 g v h
    rcases set_lookup_cases _ _ _ _ _ h with ⟨rfl, _, heq⟩ | ⟨_, hold⟩
    · obtain ⟨rfl, rfl⟩ : g0 = g ∧ s.valOf g0 = v := by
        have := (Phase.finishedPh.injEq _ _ _ _).mp heq.symm
        exact ⟨this.1, this.2⟩
      exact ⟨hval, hdone⟩
    · exact inv.finVal t2 g v hold
  · exact inv.slotRange
  · exact inv.invCount

/-- Every atomic step preserves the invariant. -/
theorem inv_step (f : Nat → Nat) (s : GState) (t : Nat) (inv : Inv f s) :
    Inv f (step f s t) := by
  rcases hph : s.threads[t]? with _ | ph
  · simpa only [step, hph] using inv
  · cases ph with
    | start =>
      rcases hslot : s.mapSlot with _ | g0
      · simpa only [step, hph, hslot] using inv_step_start_create f s t inv hph hslot
      · simpa only [step, hph, hslot] using inv_step_start_wait f s t g0 inv hph hslot
    | runner g =>
      simpa only [step, hph] using inv_step_runner f s t g inv hph
    | ranFn g =>
      simpa only [step, hph] using inv_step_delete f s t g inv hph
    | deletedRec g =>
      simpa only [step, hph] using inv_step_done f s t g inv hph
    | waiting g =>
      rcases hdone : (s.gen g).done with _ | _
      · simpa only [step, hph, hdone] using inv
      · simpa only [step, hph, hdone] using
          inv_step_wait_release f s t g inv hph hdone
    | finishedPh g v =>
      simpa only [step, hph] using inv

theorem inv_foldl (f : Nat → Nat) (sched : List Nat) :
    ∀ s : GState, Inv f s → Inv f (sched.foldl (step f) s) := by
  induction sched with
  | nil => intro s h; exact h
  | cons t ts ih =>
    intro s h
    rw [List.foldl_cons]
    exact ih _ (inv_step f s t h)

/-- The invariant holds after any schedule. -/
theorem inv_run (f : Nat → Nat) (n : Nat) (sched : List Nat) :
    Inv f (run f n sched) :=
  inv_foldl f sched (init n) (inv_init f n)

end Singleflight

/-- C3 (amended): for any number of `Do(key, fn)` callers under any
interleaving, (i) all callers released from the same call receive the same
`(value, error)` pair, namely that call's `fn` result; (ii) `fn` runs at most
once per created call record, so when all callers collapse onto one call
(`gens.length = 1`) it runs exactly once — and at least once if anyone
returned; (iii) the call record is deleted from the in-flight map before the
waiting callers are released (`wg.Done`), so a call marked done is never in
the map; (iv) a caller that arrives after the record has been deleted starts
a fresh call.  (A caller arriving after `fn` returned but before the deferred
delete still joins the completed call — see the counterexample theorem.) -/
theorem c3_singleflight_collapse_amended (f : Nat → Nat) (n : Nat)
    (sched : List Nat) :
    (∀ (t1 t2 g v1 v2 : Nat),
      (Singleflight.run f n sched).threads[t1]?
        = some (Singleflight.Phase.finishedPh g v1) →
      (Singleflight.run f n sched).threads[t2]?
        = some (Singleflight.Phase.finishedPh g v2) →
      v1 = f g ∧ v2 = f g ∧ v1 = v2) ∧
    ((Singleflight.run f n sched).invocations
      ≤ (Singleflight.run f n sched).gens.length) ∧
    (∀ (t g v : Nat),
      (Singleflight.run f n sched).threads[t]? = some (Singleflight.Phase.finishedPh g v) →
      1 ≤ (Singleflight.run f n sched).invocations ∧
      ((Singleflight.run f n sched).gens.length = 1 →
        (Singleflight.run f n sched).invocations = 1 ∧ g = 0 ∧ v = f 0)) ∧
    (∀ g : Nat, ((Singleflight.run f n sched).gen g).done = true →
      (Singleflight.run f n sched).mapSlot ≠ some g) ∧
    (∀ t : Nat, (Singleflight.run f n sched).mapSlot = none →
      (Singleflight.run f n sched).threads[t]? = some Singleflight.Phase.start →
      (Singleflight.step f (Singleflight.run f n sched) t).gens.length
        = (Singleflight.run f n sched).gens.length + 1) := by
  have inv := Singleflight.inv_run f n sched
  refine ⟨?_, ?_, ?_, ?_, ?_⟩
  · intro t1 t2 g v1 v2 h1 h2
    obtain ⟨e1, _⟩ := inv.finVal t1 g v1 h1
    obtain ⟨e2, _⟩ := inv.finVal t2 g v2 h2
    exact ⟨e1, e2, e1.trans e2.symm⟩
  · rw [inv.invCount]
    exact List.length_filter_le _ _
  · intro t g v h
    obtain ⟨hv, hdone⟩ := inv.finVal t g v h
    obtain ⟨hi, _, _⟩ := inv.doneState g hdone
    have hg : g < (Singleflight.run f n sched).gens.length :=
      inv.inRange t _ g h (by rfl)
    have hone : 1 ≤ (Singleflight.run f n sched).invocations := by
      rw [inv.invCount]
      exact Singleflight.one_le_length_filter _ _ g Singleflight.newCall hg hi
    refine ⟨hone, fun hlen => ?_⟩
    have hle : (Singleflight.run f n sched).invocations ≤ 1 := by
      rw [inv.invCount]
      have := List.length_filter_le (fun c => c.invoked)
        (Singleflight.run f n sched).gens
      omega
    exact ⟨by omega, by omega, by rw [hv]; congr 1; omega⟩
  · intro g h
    exact (inv.doneState g h).2.2
  · intro t hslot hph
    simp only [Singleflight.step, hph, hslot]
    simp
/-- Witness for C3 (amended) on a concrete six-step schedule of two callers:
the collapsed call ran `fn` exactly once and the late caller's value is
`fn`'s result. -/
theorem c3_singleflight_collapse_amended_witness :
    (Singleflight.run (fun g => 100 + g) 2 [0, 0, 1, 0, 0, 1]).invocations = 1
      ∧ (0 : Nat) = 0 ∧ (100 : Nat) = (fun g : Nat => 100 + g) 0 :=
  ((c3_singleflight_collapse_amended (fun g => 100 + g) 2
    [0, 0, 1, 0, 0, 1]).2.2.1 1 0 100 (by decide)).2 (by decide)

/-- C3 counterexample to the claim as literally stated: in the schedule
`[0,0,1,0,0,1]` of two callers, after two steps the runner (thread 0) has
already executed `fn` (phase `ranFn`, the deferred cleanup still pending);
thread 1 then arrives — strictly after `fn` has returned — yet joins the
existing completed call (phase `waiting`, still one call record, no fresh
call) and finally receives that call's result with `fn` never invoked a
second time.  So "a caller arriving after fn has returned starts a fresh
call" is false; only a caller arriving after the record is deleted does. -/
theorem c3_late_arrival_joins_completed_call :
    (Singleflight.run (fun g => 100 + g) 2 [0, 0]).threads[0]?
      = some (Singleflight.Phase.ranFn 0) ∧
    (Singleflight.run (fun g => 100 + g) 2 [0, 0, 1]).threads[1]?
      = some (Singleflight.Phase.waiting 0) ∧
    (Singleflight.run (fun g => 100 + g) 2 [0, 0, 1]).gens.length = 1 ∧
    (Singleflight.run (fun g => 100 + g) 2 [0, 0, 1, 0, 0, 1]).threads[1]?
      = some (Singleflight.Phase.finishedPh 0 100) ∧
    (Singleflight.run (fun g => 100 + g) 2 [0, 0, 1, 0, 0, 1]).gens.length = 1 ∧
    (Singleflight.run (fun g => 100 + g) 2 [0, 0, 1, 0, 0, 1]).invocations = 1 := by
  decide
